import Mathlib

/-!
Verification of the chessmate search core: a shallow embedding of the
evaluation, move-ordering, position-hashing, transposition-table and
minimax components of `sansona/chessmate`, together with theorems that
settle the specification claims against the code.

The rules engine (python-chess) is an external collaborator: positions
are opaque states that provide legal-move enumeration, capture tests,
piece-at-square queries, move application and terminal detection.  It is
embedded as a `Rules` structure whose fields are exactly the interface
functions the core calls; universally quantified theorems hold for every
instance, and concrete counterexamples are explicit instances.
-/

namespace Chessmate

/-- The six chess piece types (`PIECE_NAMES` without the `None` padding). -/
inductive PieceType where
  | P | N | B | R | Q | K
deriving DecidableEq, Repr

/-- A piece: type plus color (`True` = white in python-chess). -/
structure Piece where
  ptype : PieceType
  color : Bool
deriving DecidableEq, Repr

/-- `ConventionalPieceValues` from `constants/piece_values.py`. -/
def conventionalPieceValue : PieceType → Int
  | .P => 100
  | .N => 350
  | .B => 350
  | .R => 525
  | .Q => 1000
  | .K => 99999

/-- `PIECE_INDEXING` from `constants/misc.py`: uppercase (white) symbols
get the even index, lowercase (black) the following odd index, in order
P, N, B, R, Q, K. -/
def pieceIndex (pc : Piece) : Nat :=
  (match pc.ptype with
   | .P => 0
   | .N => 2
   | .B => 4
   | .R => 6
   | .Q => 8
   | .K => 10) + (if pc.color then 0 else 1)

/-- `chess.square_rank`: squares are numbered `rank*8 + file` (A1 = 0). -/
def squareRank (sq : Nat) : Nat := sq / 8

/-- `chess.square_file`. -/
def squareFile (sq : Nat) : Nat := sq % 8

/-- A position as read by the Zobrist hasher: per-square piece occupancy
plus the board metadata the hasher does NOT read (side to move,
castling rights, en-passant square). -/
structure BoardZ where
  pieceAt : Nat → Option Piece
  turn : Bool
  castling : Nat
  epSquare : Option Nat

/-- `zobrist_hash_function` from `transpositions.py`: for every occupied
square XOR in `hash_table[rank][file][piece_index]`. -/
def zobrist_hash_function (board : BoardZ) (hash_table : Nat → Nat → Nat → Nat) : Nat :=
  (List.range 64).foldl
    (fun h sq =>
      match board.pieceAt sq with
      | some pc => Nat.xor h (hash_table (squareRank sq) (squareFile sq) (pieceIndex pc))
      | none => h)
    0

theorem zobrist_congr_aux (t : Nat → Nat → Nat → Nat) (f g : Nat → Option Piece)
    (l : List Nat) (hfg : ∀ sq ∈ l, f sq = g sq) (h0 : Nat) :
    l.foldl (fun h sq => match f sq with
      | some pc => Nat.xor h (t (squareRank sq) (squareFile sq) (pieceIndex pc))
      | none => h) h0
    = l.foldl (fun h sq => match g sq with
      | some pc => Nat.xor h (t (squareRank sq) (squareFile sq) (pieceIndex pc))
      | none => h) h0 := by
  induction l generalizing h0 with
  | nil => rfl
  | cons a l ih =>
      have ha : f a = g a := hfg a (by simp)
      simp only [List.foldl_cons, ha]
      exact ih (fun sq hsq => hfg sq (by simp [hsq])) _

/-- C4: the Zobrist fingerprint depends only on per-square piece
occupancy and the random table: two boards with identical piece
occupancy hash identically, even when they differ in side to move,
castling rights or en-passant rights. -/
theorem zobrist_depends_only_on_occupancy (b1 b2 : BoardZ)
    (t : Nat → Nat → Nat → Nat) (hocc : ∀ sq, b1.pieceAt sq = b2.pieceAt sq) :
    zobrist_hash_function b1 t = zobrist_hash_function b2 t := by
  unfold zobrist_hash_function
  exact zobrist_congr_aux t b1.pieceAt b2.pieceAt _ (fun sq _ => hocc sq) 0

/-- A sample occupancy: both kings on their home squares (E1 = 4,
E8 = 60), nothing else. -/
def kingsOnlyOcc : Nat → Option Piece := fun sq =>
  if sq = 4 then some ⟨.K, true⟩ else if sq = 60 then some ⟨.K, false⟩ else none

/-- Witness for C4: two boards with the kings-only occupancy, differing
in side to move, castling rights and en-passant rights, get the same
fingerprint. -/
theorem zobrist_depends_only_on_occupancy_witness :
    zobrist_hash_function ⟨kingsOnlyOcc, true, 15, none⟩ (fun r f i => r * 256 + f * 16 + i)
      = zobrist_hash_function ⟨kingsOnlyOcc, false, 0, some 20⟩ (fun r f i => r * 256 + f * 16 + i) :=
  zobrist_depends_only_on_occupancy _ _ _ (fun _ => rfl)

/-! ## Piece-square tables (`get_piece_value_from_table` in `utils.py`) -/

/-- `np.rot90(t, 2)`: point reflection of an 8×8 table. -/
def rot180 (t : List (List Int)) : List (List Int) :=
  t.reverse.map List.reverse

/-- `get_piece_value_from_table` from `utils.py`: for a black piece the
whole table dictionary is first rotated 180°, then the square's rank and
file are translated by `y := 7 - y, x := 7 - x`, and the entry
`table[y][x]` is returned. -/
def get_piece_value_from_table (piece_sym : PieceType) (piece_color : Bool)
    (position : Nat) (piece_value_tables : PieceType → List (List Int)) : Int :=
  let tables := if piece_color then piece_value_tables
    else fun p => rot180 (piece_value_tables p)
  let piece_table := tables piece_sym
  let y := squareRank position
  let x := squareFile position
  let y := if piece_color then y else 7 - y
  let x := if piece_color then x else 7 - x
  (piece_table.getD y []).getD x 0

/-- `PAWN_ConventionalPieceTable` from `constants/piece_values.py`
(row 0 is rank 1). -/
def PAWN_ConventionalPieceTable : List (List Int) :=
  [ [0, 0, 0, 0, 0, 0, 0, 0],
    [5, 10, 10, -20, -20, 10, 10, 5],
    [5, -5, -10, 0, 0, -10, -5, 5],
    [0, 0, 0, 20, 20, 0, 0, 0],
    [5, 5, 10, 25, 25, 10, 5, 5],
    [10, 10, 20, 30, 30, 20, 10, 10],
    [50, 50, 50, 50, 50, 50, 50, 50],
    [0, 0, 0, 0, 0, 0, 0, 0] ]

theorem rot180_entry (t : List (List Int)) (y x : Nat)
    (hlen : t.length = 8) (hrow : ∀ r ∈ t, r.length = 8)
    (hy : y < 8) (hx : x < 8) :
    ((rot180 t).getD (7 - y) []).getD (7 - x) 0 = (t.getD y []).getD x 0 := by
  have hylt : 7 - y < t.reverse.length := by simp [hlen]; omega
  have h1 : (rot180 t).getD (7 - y) [] = (t.getD y []).reverse := by
    unfold rot180
    rw [List.getD_eq_getElem?_getD, List.getElem?_map]
    rw [List.getElem?_reverse (by simpa [hlen] using hylt)]
    have : t.length - 1 - (7 - y) = y := by omega
    rw [this]
    rw [List.getD_eq_getElem?_getD]
    cases hgy : t[y]? with
    | none =>
        simp at hgy
        omega
    | some row => simp
  have hyt : y < t.length := by omega
  have hget : t.getD y [] = t[y] := by
    rw [List.getD_eq_getElem?_getD, List.getElem?_eq_getElem hyt]
    rfl
  have hrowlen : (t[y]).length = 8 := hrow _ (List.getElem_mem hyt)
  rw [h1, hget]
  rw [List.getD_eq_getElem?_getD, List.getElem?_reverse (by omega), hrowlen]
  have hxx : 8 - 1 - (7 - x) = x := by omega
  rw [hxx, List.getD_eq_getElem?_getD]

/-- C3 (amended): for an 8×8 table, the 180° rotation and the
`7 - rank, 7 - file` index translation cancel, so the placement bonus
applied to a black piece at a square equals the white bonus at the SAME
square (not at the point-reflected square). -/
theorem black_table_value_eq_white_same_square (sym : PieceType) (pos : Nat)
    (tables : PieceType → List (List Int)) (hpos : pos < 64)
    (hlen : (tables sym).length = 8) (hrow : ∀ r ∈ tables sym, r.length = 8) :
    get_piece_value_from_table sym false pos tables
      = get_piece_value_from_table sym true pos tables := by
  unfold get_piece_value_from_table
  simp only [if_neg (Bool.false_ne_true), if_pos rfl]
  exact rot180_entry (tables sym) (squareRank pos) (squareFile pos) hlen hrow
    (by unfold squareRank; omega) (by unfold squareFile; omega)

/-- Witness for C3's amended theorem: for the conventional pawn table,
a black pawn on A2 (square 8) scores the table entry for rank 1, file 0,
exactly as a white pawn on A2 does. -/
theorem black_table_value_eq_white_same_square_witness :
    (8 : Nat) < 64 ∧
    get_piece_value_from_table .P false 8 (fun _ => PAWN_ConventionalPieceTable)
      = get_piece_value_from_table .P true 8 (fun _ => PAWN_ConventionalPieceTable) :=
  ⟨by decide,
   black_table_value_eq_white_same_square .P 8 (fun _ => PAWN_ConventionalPieceTable)
     (by decide) (by decide) (by decide)⟩

/-- Counterexample to C3 as stated: with the conventional pawn table, a
black pawn on A2 (square 8; rank 1, file 0) gets bonus 5, while a white
pawn on the 180°-reflected square H7 (square 55; rank 6, file 7) gets
bonus 50 — so the black bonus at a square does NOT equal the white
bonus at the point-reflected square. -/
theorem black_table_value_ne_white_reflected_square :
    get_piece_value_from_table .P false 8 (fun _ => PAWN_ConventionalPieceTable) = 5 ∧
    get_piece_value_from_table .P true 55 (fun _ => PAWN_ConventionalPieceTable) = 50 ∧
    get_piece_value_from_table .P false 8 (fun _ => PAWN_ConventionalPieceTable)
      ≠ get_piece_value_from_table .P true 55 (fun _ => PAWN_ConventionalPieceTable) := by
  refine ⟨by decide, by decide, by decide⟩

/-! ## The rules-engine interface and the MVV-LVA move orderer -/

/-- A move as `MVV_LVA` reads it: `str(move)[:2]` is the from-square and
`str(move)[2:4]` the to-square (a promotion suffix is never read by the
square parser). Squares are python-chess indices `rank*8 + file`. -/
structure Mv where
  fromSq : Nat
  toSq : Nat
deriving DecidableEq, Repr

/-- The rules-engine collaborator (python-chess `Board`), embedded as the
interface functions the core calls on a position state `σ`. -/
structure Rules (σ : Type) where
  moves : σ → List Mv
  isCapture : σ → Mv → Bool
  pieceAt : σ → Nat → Option Piece
  apply : σ → Mv → σ
  over : σ → Bool
  eval : σ → Int
  hash : σ → Nat

variable {σ : Type}

/-- The value-difference bucket a move falls into in `MVV_LVA`:
`some (value(victim) - value(aggressor))` when the move is a capture and
both the from- and to-squares hold a piece, `none` otherwise (the
symbols are uppercased, so only the piece type matters). -/
def bucketKey (pv : PieceType → Int) (R : Rules σ) (b : σ) (m : Mv) : Option Int :=
  if R.isCapture b m then
    match R.pieceAt b m.fromSq, R.pieceAt b m.toSq with
    | some agg, some vic => some (pv vic.ptype - pv agg.ptype)
    | _, _ => none
  else none

/-- Appending a move to its value-diff bucket, mirroring the
`available_captures[value_diff]` dict update (a fresh key goes to the
end, preserving dict insertion order). -/
def bucketAdd (k : Int) (m : Mv) : List (Int × List Mv) → List (Int × List Mv)
  | [] => [(k, [m])]
  | (k', l) :: rest =>
      if k' = k then (k', l ++ [m]) :: rest else (k', l) :: bucketAdd k m rest

/-- One iteration of the capture-ranking loop in `MVV_LVA`. -/
def bucketStep (pv : PieceType → Int) (R : Rules σ) (b : σ)
    (acc : List (Int × List Mv)) (m : Mv) : List (Int × List Mv) :=
  match bucketKey pv R b m with
  | some k => bucketAdd k m acc
  | none => acc

/-- The `available_captures` dict after the loop over `move_list`. -/
def available_captures (pv : PieceType → Int) (R : Rules σ) (b : σ) : List (Int × List Mv) :=
  (R.moves b).foldl (bucketStep pv R b) []

/-- Ordered-dict lookup. -/
def assocFind : List (Int × List Mv) → Int → Option (List Mv)
  | [], _ => none
  | (k', l) :: rest, k => if k' = k then some l else assocFind rest k

/-- `sorted(available_captures, reverse=True)`: the bucket keys in
descending order. -/
def sortedKeysDesc (pv : PieceType → Int) (R : Rules σ) (b : σ) : List Int :=
  List.insertionSort (· ≥ ·) ((available_captures pv R b).map Prod.fst)

/-- `MVV_LVA` from `heuristics.py`. `shuffle` stands for the fixed
outcome of `random.shuffle` on the legal-move list. -/
def MVV_LVA (pv : PieceType → Int) (R : Rules σ) (shuffle : List Mv → List Mv) (b : σ) :
    List Mv :=
  if (available_captures pv R b).isEmpty then shuffle (R.moves b)
  else (sortedKeysDesc pv R b).flatMap
    (fun k => (assocFind (available_captures pv R b) k).getD [])

/-- The moves of `ms` in bucket `k`, in input order. -/
def filterKey (pv : PieceType → Int) (R : Rules σ) (b : σ) (ms : List Mv) (k : Int) :
    List Mv :=
  ms.filter (fun m => bucketKey pv R b m = some k)

theorem assocFind_bucketAdd (k' k : Int) (m : Mv) (acc : List (Int × List Mv)) :
    assocFind (bucketAdd k' m acc) k =
      if k = k' then
        match assocFind acc k' with
        | some l => some (l ++ [m])
        | none => some [m]
      else assocFind acc k := by
  induction acc with
  | nil =>
      by_cases hk : k = k'
      · subst hk
        simp [bucketAdd, assocFind]
      · simp [bucketAdd, assocFind, hk, if_neg (fun h : k' = k => hk h.symm)]
  | cons p rest ih =>
      obtain ⟨k0, l0⟩ := p
      by_cases h0 : k0 = k'
      · subst h0
        by_cases hk : k = k0 <;> simp [bucketAdd, assocFind, hk, eq_comm]
      · by_cases hk : k0 = k
        · subst hk
          have hkne : ¬ k0 = k' := h0
          simp [bucketAdd, assocFind, hkne, if_neg (fun h : k0 = k' => hkne h)]
        · simp [bucketAdd, if_neg h0, assocFind, hk, ih]

theorem assocFind_foldl (pv : PieceType → Int) (R : Rules σ) (b : σ)
    (ms : List Mv) (acc : List (Int × List Mv)) (k : Int) :
    assocFind (ms.foldl (bucketStep pv R b) acc) k =
      match assocFind acc k with
      | some l => some (l ++ filterKey pv R b ms k)
      | none =>
          if filterKey pv R b ms k = [] then none else some (filterKey pv R b ms k) := by
  induction ms generalizing acc with
  | nil =>
      cases hacc : assocFind acc k <;> simp [filterKey, hacc]
  | cons m ms ih =>
      rw [List.foldl_cons]
      cases hkm : bucketKey pv R b m with
      | none =>
          have hstep : bucketStep pv R b acc m = acc := by simp [bucketStep, hkm]
          have hfk : filterKey pv R b (m :: ms) k = filterKey pv R b ms k := by
            simp [filterKey, hkm]
          rw [hstep, hfk, ih]
      | some k' =>
          have hstep : bucketStep pv R b acc m = bucketAdd k' m acc := by
            simp [bucketStep, hkm]
          rw [hstep, ih, assocFind_bucketAdd]
          by_cases hk : k = k'
          · subst hk
            have hfk : filterKey pv R b (m :: ms) k = m :: filterKey pv R b ms k := by
              simp [filterKey, hkm]
            rw [hfk, if_pos rfl]
            cases hacc : assocFind acc k <;> simp
          · have hne : ¬ (k' = k) := fun h => hk h.symm
            have hfk : filterKey pv R b (m :: ms) k = filterKey pv R b ms k := by
              simp [filterKey, hkm, hne]
            rw [hfk, if_neg hk]

/-- `assocFind` on the finished `available_captures` dict returns exactly
the input-ordered bucket of moves with that value-diff. -/
theorem assocFind_available (pv : PieceType → Int) (R : Rules σ) (b : σ) (k : Int) :
    assocFind (available_captures pv R b) k =
      if filterKey pv R b (R.moves b) k = [] then none
      else some (filterKey pv R b (R.moves b) k) := by
  unfold available_captures
  rw [assocFind_foldl]
  rfl

theorem keys_bucketAdd (k : Int) (m : Mv) (acc : List (Int × List Mv)) :
    (bucketAdd k m acc).map Prod.fst =
      if k ∈ acc.map Prod.fst then acc.map Prod.fst else acc.map Prod.fst ++ [k] := by
  induction acc with
  | nil => simp [bucketAdd]
  | cons p rest ih =>
      obtain ⟨k0, l0⟩ := p
      by_cases h0 : k0 = k
      · subst h0
        simp [bucketAdd]
      · simp only [bucketAdd, if_neg h0, List.map_cons, ih]
        by_cases hmem : k ∈ rest.map Prod.fst
        · rw [if_pos hmem, if_pos (List.mem_cons_of_mem _ hmem)]
        · rw [if_neg hmem,
            if_neg (fun h => (List.mem_cons.mp h).elim (fun h' => h0 h'.symm) hmem)]
          rfl

theorem mem_keys_foldl (pv : PieceType → Int) (R : Rules σ) (b : σ)
    (ms : List Mv) (acc : List (Int × List Mv)) (k : Int) :
    k ∈ (ms.foldl (bucketStep pv R b) acc).map Prod.fst ↔
      k ∈ acc.map Prod.fst ∨ ∃ m ∈ ms, bucketKey pv R b m = some k := by
  induction ms generalizing acc with
  | nil => simp
  | cons m ms ih =>
      rw [List.foldl_cons]
      cases hkm : bucketKey pv R b m with
      | none =>
          have hstep : bucketStep pv R b acc m = acc := by simp [bucketStep, hkm]
          rw [hstep, ih]
          constructor
          · rintro (h | h)
            · exact Or.inl h
            · exact Or.inr (by obtain ⟨m', hm', hk'⟩ := h; exact ⟨m', by simp [hm'], hk'⟩)
          · rintro (h | ⟨m', hm', hk'⟩)
            · exact Or.inl h
            · rcases List.mem_cons.mp hm' with rfl | hm''
              · rw [hkm] at hk'
                cases hk'
              · exact Or.inr ⟨m', hm'', hk'⟩
      | some k' =>
          have hstep : bucketStep pv R b acc m = bucketAdd k' m acc := by
            simp [bucketStep, hkm]
          rw [hstep, ih, keys_bucketAdd]
          by_cases hmem : k' ∈ acc.map Prod.fst
          · rw [if_pos hmem]
            constructor
            · rintro (h | h)
              · exact Or.inl h
              · exact Or.inr (by obtain ⟨m', hm', hk'⟩ := h; exact ⟨m', by simp [hm'], hk'⟩)
            · rintro (h | ⟨m', hm', hk'⟩)
              · exact Or.inl h
              · rcases List.mem_cons.mp hm' with rfl | hm''
                · rw [hkm] at hk'
                  cases hk'
                  exact Or.inl hmem
                · exact Or.inr ⟨m', hm'', hk'⟩
          · rw [if_neg hmem]
            simp only [List.mem_append, List.mem_singleton]
            constructor
            · rintro ((h | rfl) | h)
              · exact Or.inl h
              · exact Or.inr ⟨m, by simp, hkm⟩
              · exact Or.inr (by obtain ⟨m', hm', hk'⟩ := h; exact ⟨m', by simp [hm'], hk'⟩)
            · rintro (h | ⟨m', hm', hk'⟩)
              · exact Or.inl (Or.inl h)
              · rcases List.mem_cons.mp hm' with rfl | hm''
                · rw [hkm] at hk'
                  cases hk'
                  exact Or.inl (Or.inr rfl)
                · exact Or.inr ⟨m', hm'', hk'⟩

theorem nodup_keys_foldl (pv : PieceType → Int) (R : Rules σ) (b : σ)
    (ms : List Mv) (acc : List (Int × List Mv)) (hacc : (acc.map Prod.fst).Nodup) :
    ((ms.foldl (bucketStep pv R b) acc).map Prod.fst).Nodup := by
  induction ms generalizing acc with
  | nil => exact hacc
  | cons m ms ih =>
      rw [List.foldl_cons]
      cases hkm : bucketKey pv R b m with
      | none =>
          have hstep : bucketStep pv R b acc m = acc := by simp [bucketStep, hkm]
          rw [hstep]
          exact ih acc hacc
      | some k' =>
          have hstep : bucketStep pv R b acc m = bucketAdd k' m acc := by
            simp [bucketStep, hkm]
          rw [hstep]
          apply ih
          rw [keys_bucketAdd]
          by_cases hmem : k' ∈ acc.map Prod.fst
          · rwa [if_pos hmem]
          · rw [if_neg hmem]
            simpa using List.Nodup.append hacc (List.nodup_singleton k')
              (by simpa [List.disjoint_singleton] using hmem)

/-- Keys of the finished dict are exactly the value-diffs realized by
some move of the input. -/
theorem mem_keys_available (pv : PieceType → Int) (R : Rules σ) (b : σ) (k : Int) :
    k ∈ (available_captures pv R b).map Prod.fst ↔
      ∃ m ∈ R.moves b, bucketKey pv R b m = some k := by
  unfold available_captures
  rw [mem_keys_foldl]
  simp

theorem nodup_keys_available (pv : PieceType → Int) (R : Rules σ) (b : σ) :
    ((available_captures pv R b).map Prod.fst).Nodup :=
  nodup_keys_foldl pv R b _ [] (by simp)

theorem available_isEmpty_iff (pv : PieceType → Int) (R : Rules σ) (b : σ) :
    (available_captures pv R b).isEmpty = true ↔
      ∀ m ∈ R.moves b, bucketKey pv R b m = none := by
  rw [List.isEmpty_iff]
  constructor
  · intro hemp m hm
    cases hkm : bucketKey pv R b m with
    | none => rfl
    | some k =>
        exfalso
        have : k ∈ (available_captures pv R b).map Prod.fst :=
          (mem_keys_available pv R b k).mpr ⟨m, hm, hkm⟩
        rw [hemp] at this
        simp at this
  · intro hall
    by_contra hne
    obtain ⟨⟨k, l⟩, hmem⟩ := List.exists_mem_of_ne_nil _ hne
    have hk : k ∈ (available_captures pv R b).map Prod.fst := by
      exact List.mem_map_of_mem Prod.fst hmem
    obtain ⟨m, hm, hkm⟩ := (mem_keys_available pv R b k).mp hk
    rw [hall m hm] at hkm
    cases hkm

theorem sortedKeysDesc_sorted (pv : PieceType → Int) (R : Rules σ) (b : σ) :
    List.Chain' (· > ·) (sortedKeysDesc pv R b) := by
  have hsorted : List.Sorted (· ≥ ·) (sortedKeysDesc pv R b) :=
    List.sorted_insertionSort _ _
  have hnodup : (sortedKeysDesc pv R b).Nodup :=
    (List.perm_insertionSort _ _).symm.nodup (nodup_keys_available pv R b)
  refine List.Pairwise.chain' ((hsorted.and hnodup).imp ?_)
  rintro a c ⟨hge, hne⟩
  exact lt_of_le_of_ne hge (Ne.symm hne)

theorem mem_sortedKeysDesc (pv : PieceType → Int) (R : Rules σ) (b : σ) (k : Int) :
    k ∈ sortedKeysDesc pv R b ↔ ∃ m ∈ R.moves b, bucketKey pv R b m = some k := by
  rw [← mem_keys_available]
  exact (List.perm_insertionSort _ _).mem_iff

theorem flatMap_congr_mem {α β : Type} (l : List α) (f g : α → List β)
    (h : ∀ a ∈ l, f a = g a) : l.flatMap f = l.flatMap g := by
  induction l with
  | nil => rfl
  | cons a l ih =>
      simp only [List.flatMap_cons, h a (by simp)]
      rw [ih (fun a' ha' => h a' (by simp [ha']))]

/-- In the capture branch, the emitted list is exactly the buckets in
strictly descending value-diff order, each bucket in input order. -/
theorem MVV_LVA_capture_branch (pv : PieceType → Int) (R : Rules σ) (b : σ)
    (shuffle : List Mv → List Mv)
    (hne : (available_captures pv R b).isEmpty = false) :
    MVV_LVA pv R shuffle b =
      (sortedKeysDesc pv R b).flatMap
        (fun k => filterKey pv R b (R.moves b) k) := by
  unfold MVV_LVA
  rw [hne]
  simp only [Bool.false_eq_true, if_false]
  apply flatMap_congr_mem
  intro k hk
  obtain ⟨m, hm, hkm⟩ := (mem_sortedKeysDesc pv R b k).mp hk
  have hfilter : filterKey pv R b (R.moves b) k ≠ [] := by
    intro hnil
    have := List.filter_eq_nil_iff.mp hnil m hm
    simp [hkm] at this
  rw [assocFind_available, if_neg hfilter]
  rfl

/-- C6: the capture moves emitted by `MVV_LVA` are grouped by value-diff
bucket, the groups appear in strictly descending order of
`value(victim) - value(aggressor)`, and within a group the moves keep
the relative order of the input legal-move enumeration. (In the
fall-through branch no move has a bucket, and both sides are empty.) -/
theorem MVV_LVA_groups_desc_stable (pv : PieceType → Int) (R : Rules σ) (b : σ)
    (shuffle : List Mv → List Mv) (hsh : ∀ l, (shuffle l).Perm l) :
    ((MVV_LVA pv R shuffle b).filter (fun m => (bucketKey pv R b m).isSome))
        = (sortedKeysDesc pv R b).flatMap (fun k => filterKey pv R b (R.moves b) k)
      ∧ List.Chain' (· > ·) (sortedKeysDesc pv R b) := by
  refine ⟨?_, sortedKeysDesc_sorted pv R b⟩
  cases hem : (available_captures pv R b).isEmpty with
  | true =>
      have hall := (available_isEmpty_iff pv R b).mp hem
      have hout : MVV_LVA pv R shuffle b = shuffle (R.moves b) := by
        unfold MVV_LVA
        rw [hem]
        rfl
      have hkeys : (available_captures pv R b).map Prod.fst = [] := by
        rw [List.isEmpty_iff.mp hem]
        rfl
      have hsk : sortedKeysDesc pv R b = [] := by
        unfold sortedKeysDesc
        rw [hkeys]
        rfl
      rw [hout, hsk]
      simp only [List.flatMap_nil]
      apply List.filter_eq_nil_iff.mpr
      intro m hm
      have hm' : m ∈ R.moves b := (hsh (R.moves b)).mem_iff.mp hm
      rw [hall m hm']
      simp
  | false =>
      rw [MVV_LVA_capture_branch pv R b shuffle hem]
      apply List.filter_eq_self.mpr
      intro m hm
      obtain ⟨k, _, hmk⟩ := List.mem_flatMap.mp hm
      have := (List.mem_filter.mp hmk).2
      simp only [decide_eq_true_eq] at this
      simp [this]

theorem flatMap_filter_perm (key : Mv → Option Int) (l : List Mv) :
    ∀ ks : List Int, ks.Nodup →
      (ks.flatMap (fun k => l.filter (fun m => key m = some k))).Perm
        (l.filter (fun m => match key m with
          | some k => ks.contains k
          | none => false)) := by
  intro ks
  induction ks with
  | nil =>
      intro _
      have h : l.filter (fun m => match key m with
          | some k => List.contains ([] : List Int) k
          | none => false) = [] := by
        apply List.filter_eq_nil_iff.mpr
        intro m _
        cases key m <;> simp
      rw [List.flatMap_nil, h]
  | cons k ks ih =>
      intro hnd
      have hk : k ∉ ks := (List.nodup_cons.mp hnd).1
      have hnd' : ks.Nodup := (List.nodup_cons.mp hnd).2
      rw [List.flatMap_cons]
      have h1 : l.filter (fun m => key m = some k)
          = (l.filter (fun m => match key m with
              | some k' => List.contains (k :: ks) k'
              | none => false)).filter (fun m => key m = some k) := by
        rw [List.filter_filter]
        apply List.filter_congr
        intro m _
        cases hkm : key m with
        | none => simp
        | some k' =>
            by_cases hkk : k' = k
            · subst hkk
              simp [List.contains_cons]
            · simp [hkk]
      have h2 : l.filter (fun m => match key m with
            | some k' => List.contains ks k'
            | none => false)
          = (l.filter (fun m => match key m with
              | some k' => List.contains (k :: ks) k'
              | none => false)).filter (fun m => !decide (key m = some k)) := by
        rw [List.filter_filter]
        apply List.filter_congr
        intro m _
        cases hkm : key m with
        | none => simp
        | some k' =>
            by_cases hkk : k' = k
            · subst hkk
              simp [List.elem_eq_mem, hk]
            · simp [hkk, List.contains_cons]
      refine (List.Perm.append_left (l.filter (fun m => key m = some k))
        (ih hnd')).trans ?_
      rw [h1, h2]
      exact List.filter_append_perm _ _

/-- C5 (amended): when no legal move lands in a capture bucket the
output of `MVV_LVA` is a permutation of the full legal-move list; when
at least one legal move lands in a bucket, the output is a permutation
of exactly those bucketed capture moves (the other legal moves are
dropped). -/
theorem MVV_LVA_partition (pv : PieceType → Int) (R : Rules σ) (b : σ)
    (shuffle : List Mv → List Mv) (hsh : ∀ l, (shuffle l).Perm l) :
    ((∀ m ∈ R.moves b, bucketKey pv R b m = none) →
        (MVV_LVA pv R shuffle b).Perm (R.moves b))
    ∧ ((∃ m ∈ R.moves b, (bucketKey pv R b m).isSome) →
        (MVV_LVA pv R shuffle b).Perm
          ((R.moves b).filter (fun m => (bucketKey pv R b m).isSome))) := by
  constructor
  · intro hall
    have hem : (available_captures pv R b).isEmpty = true :=
      (available_isEmpty_iff pv R b).mpr hall
    unfold MVV_LVA
    rw [hem]
    exact hsh (R.moves b)
  · rintro ⟨m, hm, hms⟩
    have hem : (available_captures pv R b).isEmpty = false := by
      cases hem : (available_captures pv R b).isEmpty with
      | true =>
          have := (available_isEmpty_iff pv R b).mp hem m hm
          rw [this] at hms
          cases hms
      | false => rfl
    rw [MVV_LVA_capture_branch pv R b shuffle hem]
    have hperm := flatMap_filter_perm (bucketKey pv R b) (R.moves b)
      (sortedKeysDesc pv R b)
      ((List.perm_insertionSort _ _).symm.nodup (nodup_keys_available pv R b))
    refine hperm.trans (List.Perm.of_eq ?_)
    apply List.filter_congr
    intro m' hm'
    cases hkm : bucketKey pv R b m' with
    | none => simp
    | some k =>
        have : k ∈ sortedKeysDesc pv R b :=
          (mem_sortedKeysDesc pv R b k).mpr ⟨m', hm', hkm⟩
        simp [List.elem_eq_mem, this]

/-! Concrete rules-engine instances for the heuristics claims.  `RexCap`
is a position with a white queen on D4 (square 27), black pawn on E5
(36), black rook on D8 (59) and kings on A1/H8: the queen can capture
the pawn or the rook, or move quietly to D5. -/

/-- QxE5: capture of the pawn (value diff 100 − 1000 = −900). -/
def mQxP : Mv := ⟨27, 36⟩

/-- QxD8: capture of the rook (value diff 525 − 1000 = −475). -/
def mQxR : Mv := ⟨27, 59⟩

/-- Qd4–d5: a quiet move. -/
def mQd5 : Mv := ⟨27, 35⟩

def RexCap : Rules Nat where
  moves := fun _ => [mQxP, mQxR, mQd5]
  isCapture := fun _ m => m = mQxP || m = mQxR
  pieceAt := fun _ sq =>
    if sq = 27 then some ⟨.Q, true⟩
    else if sq = 36 then some ⟨.P, false⟩
    else if sq = 59 then some ⟨.R, false⟩
    else if sq = 0 then some ⟨.K, true⟩
    else if sq = 63 then some ⟨.K, false⟩
    else none
  apply := fun s _ => s
  over := fun _ => false
  eval := fun _ => 0
  hash := fun s => s

/-- Counterexample to C5 as stated: in `RexCap`'s position the ordered
list returned by `MVV_LVA` is `[QxD8, QxE5]` — the quiet legal move
Qd4–d5 is missing — so the output is NOT a permutation of the full
legal-move list. -/
theorem MVV_LVA_not_perm_counterexample :
    MVV_LVA conventionalPieceValue RexCap (fun l => l) 0 = [mQxR, mQxP] ∧
    ¬ (MVV_LVA conventionalPieceValue RexCap (fun l => l) 0).Perm (RexCap.moves 0) := by
  constructor
  · rfl
  · intro h
    have hlen := h.length_eq
    have heq : MVV_LVA conventionalPieceValue RexCap (fun l => l) 0 = [mQxR, mQxP] := rfl
    rw [heq] at hlen
    exact absurd hlen (by decide)

/-- Witness for C5's amended theorem at the `RexCap` position: the
output is a permutation of the bucketed captures. -/
theorem MVV_LVA_partition_witness :
    (MVV_LVA conventionalPieceValue RexCap (fun l => l) 0).Perm
      ((RexCap.moves 0).filter
        (fun m => (bucketKey conventionalPieceValue RexCap 0 m).isSome)) :=
  (MVV_LVA_partition conventionalPieceValue RexCap 0 (fun l => l)
    (fun l => List.Perm.refl l)).2 ⟨mQxP, by decide, by decide⟩

/-- Witness for C6 at the `RexCap` position. -/
theorem MVV_LVA_groups_desc_stable_witness :
    ((MVV_LVA conventionalPieceValue RexCap (fun l => l) 0).filter
        (fun m => (bucketKey conventionalPieceValue RexCap 0 m).isSome))
        = (sortedKeysDesc conventionalPieceValue RexCap 0).flatMap
            (fun k => filterKey conventionalPieceValue RexCap 0 (RexCap.moves 0) k)
      ∧ List.Chain' (· > ·) (sortedKeysDesc conventionalPieceValue RexCap 0) :=
  MVV_LVA_groups_desc_stable conventionalPieceValue RexCap 0 (fun l => l)
    (fun l => List.Perm.refl l)

/-- C9: an en-passant capture (a capture whose destination square holds
no piece) is never placed in a value-diff bucket, and when every capture
in the position is en passant, `MVV_LVA` falls through to the shuffled
full legal-move list. -/
theorem MVV_LVA_en_passant (pv : PieceType → Int) (R : Rules σ) (b : σ)
    (shuffle : List Mv → List Mv) :
    (∀ m, R.isCapture b m = true → R.pieceAt b m.toSq = none →
        bucketKey pv R b m = none ∧
        ∀ k l, assocFind (available_captures pv R b) k = some l → m ∉ l)
    ∧ ((∀ m ∈ R.moves b, R.isCapture b m = true → R.pieceAt b m.toSq = none) →
        MVV_LVA pv R shuffle b = shuffle (R.moves b)) := by
  have hkey : ∀ m, R.isCapture b m = true → R.pieceAt b m.toSq = none →
      bucketKey pv R b m = none := by
    intro m hcap hto
    unfold bucketKey
    rw [if_pos hcap, hto]
    cases R.pieceAt b m.fromSq <;> rfl
  constructor
  · intro m hcap hto
    refine ⟨hkey m hcap hto, ?_⟩
    intro k l hfind hmem
    rw [assocFind_available] at hfind
    by_cases hnil : filterKey pv R b (R.moves b) k = []
    · rw [if_pos hnil] at hfind
      cases hfind
    · rw [if_neg hnil] at hfind
      cases hfind
      have := (List.mem_filter.mp hmem).2
      rw [hkey m hcap hto] at this
      simp at this
  · intro hall
    have hem : (available_captures pv R b).isEmpty = true := by
      apply (available_isEmpty_iff pv R b).mpr
      intro m hm
      cases hcap : R.isCapture b m with
      | true => exact hkey m hcap (hall m hm hcap)
      | false => simp [bucketKey, hcap]
    unfold MVV_LVA
    rw [hem]
    rfl

/-! `RexEP` is the position after 1.e4 … 2.e5 d7–d5: the white pawn on
E5 (square 36) can capture the black pawn on D5 (35) en passant, landing
on the empty square D6 (43), or push quietly to E6 (44). -/

/-- The en-passant capture e5×d6. -/
def mEP : Mv := ⟨36, 43⟩

/-- The quiet push e5–e6. -/
def mPe6 : Mv := ⟨36, 44⟩

def RexEP : Rules Nat where
  moves := fun _ => [mEP, mPe6]
  isCapture := fun _ m => m = mEP
  pieceAt := fun _ sq =>
    if sq = 36 then some ⟨.P, true⟩
    else if sq = 35 then some ⟨.P, false⟩
    else if sq = 4 then some ⟨.K, true⟩
    else if sq = 60 then some ⟨.K, false⟩
    else none
  apply := fun s _ => s
  over := fun _ => false
  eval := fun _ => 0
  hash := fun s => s

/-- Witness for C9 at the `RexEP` position: the en-passant capture gets
no bucket, and the output falls through to the shuffled (here: identity)
full legal-move list. -/
theorem MVV_LVA_en_passant_witness :
    bucketKey conventionalPieceValue RexEP 0 mEP = none ∧
    MVV_LVA conventionalPieceValue RexEP (fun l => l) 0 = RexEP.moves 0 := by
  constructor
  · exact ((MVV_LVA_en_passant conventionalPieceValue RexEP 0 (fun l => l)).1
      mEP (by decide) (by decide)).1
  · exact (MVV_LVA_en_passant conventionalPieceValue RexEP 0 (fun l => l)).2
      (by decide)

/-! ## The transposition table (`transpositions.py`) -/

/-- Dict lookup in the fingerprint → score map. -/
def ttFind : List (Nat × Int) → Nat → Option Int
  | [], _ => none
  | (h, v) :: rest, k => if h = k then some v else ttFind rest k

/-- Dict assignment `stored_values[fingerprint] = score`: overwrite the
entry in place when the fingerprint is present, append otherwise. -/
def ttStore : List (Nat × Int) → Nat → Int → List (Nat × Int)
  | [], k, v => [(k, v)]
  | (h, w) :: rest, k, v =>
      if h = k then (h, v) :: rest else (h, w) :: ttStore rest k v

/-- `TranspositionTable`: owns a random hash table (generated once at
construction, stable for the table's lifetime) and the mutable
fingerprint → score map. -/
structure TranspositionTable where
  hash_table : Nat → Nat → Nat → Nat
  stored_values : List (Nat × Int)

/-- `hash_position` from `transpositions.py`: hash a board state with
the table's own random table. -/
def TranspositionTable.hash_position (t : TranspositionTable) (board : BoardZ) : Nat :=
  zobrist_hash_function board t.hash_table

/-- Modelled from the spec: `store(position, score)` — "compute
fingerprint, insert/overwrite".  The implementation used by
`engines.py` and by the test suite (`store_current_board` writing into
`stored_values`) is not part of the source snapshot, where
`append_boardstate_to_table` is an unimplemented stub, so the operation
is modelled from the spec's words. -/
def TranspositionTable.store (t : TranspositionTable) (board : BoardZ) (score : Int) :
    TranspositionTable :=
  { t with stored_values := ttStore t.stored_values (t.hash_position board) score }

/-- Modelled from the spec: `lookup(position) -> Option<Score>` —
"compute fingerprint, return stored value if present". -/
def TranspositionTable.lookup (t : TranspositionTable) (board : BoardZ) : Option Int :=
  ttFind t.stored_values (t.hash_position board)

theorem ttFind_ttStore (l : List (Nat × Int)) (k k' : Nat) (v : Int) :
    ttFind (ttStore l k v) k' = if k' = k then some v else ttFind l k' := by
  induction l with
  | nil =>
      by_cases hk : k' = k
      · subst hk
        simp [ttStore, ttFind]
      · simp [ttStore, ttFind, hk, if_neg (fun h : k = k' => hk h.symm)]
  | cons p rest ih =>
      obtain ⟨h, w⟩ := p
      by_cases hhk : h = k
      · subst hhk
        by_cases hk : k' = h
        · subst hk
          simp [ttStore, ttFind]
        · simp [ttStore, ttFind, hk, if_neg (fun hh : h = k' => hk hh.symm)]
      · by_cases hk : h = k'
        · subst hk
          simp [ttStore, hhk, ttFind]
        · simp [ttStore, hhk, ttFind, hk, ih]

theorem ttStore_ttStore (l : List (Nat × Int)) (k : Nat) (v v' : Int) :
    ttStore (ttStore l k v) k v' = ttStore l k v' := by
  induction l with
  | nil => simp [ttStore]
  | cons p rest ih =>
      obtain ⟨h, w⟩ := p
      by_cases hhk : h = k
      · subst hhk
        simp [ttStore]
      · simp [ttStore, hhk, ih]

theorem keys_ttStore (l : List (Nat × Int)) (k : Nat) (v : Int) :
    (ttStore l k v).map Prod.fst =
      if k ∈ l.map Prod.fst then l.map Prod.fst else l.map Prod.fst ++ [k] := by
  induction l with
  | nil => simp [ttStore]
  | cons p rest ih =>
      obtain ⟨h, w⟩ := p
      by_cases hhk : h = k
      · subst hhk
        simp [ttStore]
      · simp only [ttStore, if_neg hhk, List.map_cons, ih]
        by_cases hmem : k ∈ rest.map Prod.fst
        · rw [if_pos hmem, if_pos (List.mem_cons_of_mem _ hmem)]
        · rw [if_neg hmem,
            if_neg (fun hh => (List.mem_cons.mp hh).elim (fun h' => hhk h'.symm) hmem)]
          rfl

/-- C2: `store` computes the position's fingerprint and inserts or
overwrites the entry under it, so a subsequent `lookup` of any position
with the same fingerprint returns the stored score (and other
fingerprints are unaffected); a fingerprint maps to at most one stored
value at a time (distinct keys stay distinct); and a later `store` for
the same fingerprint replaces the earlier value. -/
theorem transposition_store_lookup (t : TranspositionTable) (b b' : BoardZ)
    (v v' : Int) :
    ((t.store b v).lookup b' =
        if t.hash_position b' = t.hash_position b then some v else t.lookup b')
    ∧ ((t.stored_values.map Prod.fst).Nodup →
        (((t.store b v).stored_values).map Prod.fst).Nodup)
    ∧ (t.store b v).store b v' = t.store b v' := by
  refine ⟨?_, ?_, ?_⟩
  · unfold TranspositionTable.store TranspositionTable.lookup
    simp only
    rw [ttFind_ttStore]
    rfl
  · intro hnd
    unfold TranspositionTable.store
    simp only
    rw [keys_ttStore]
    by_cases hmem : t.hash_position b ∈ t.stored_values.map Prod.fst
    · rwa [if_pos hmem]
    · rw [if_neg hmem]
      simpa using List.Nodup.append hnd (List.nodup_singleton _)
        (by simpa [List.disjoint_singleton] using hmem)
  · unfold TranspositionTable.store TranspositionTable.hash_position
    simp only
    rw [ttStore_ttStore]

/-- Witness for C2: a concrete table and board — storing 7 then looking
the same position up returns 7, the key set stays duplicate-free, and a
second store for the same fingerprint collapses to the last one. -/
theorem transposition_store_lookup_witness :
    ((TranspositionTable.mk (fun r f i => r * 256 + f * 16 + i) []).store
        ⟨kingsOnlyOcc, true, 15, none⟩ 7).lookup ⟨kingsOnlyOcc, false, 0, none⟩ = some 7 := by
  have h := (transposition_store_lookup
    (TranspositionTable.mk (fun r f i => r * 256 + f * 16 + i) [])
    ⟨kingsOnlyOcc, true, 15, none⟩ ⟨kingsOnlyOcc, false, 0, none⟩ 7 9).1
  rw [h, if_pos]
  exact zobrist_depends_only_on_occupancy _ _ _ (fun _ => rfl)

/-! ## The MiniMax engine (`engines.py`)

Scores are python floats: evaluation results are finite integers while
alpha and beta default to −inf/+inf, so scores live in
`WithBot (WithTop ℤ)` with its linear order. -/

abbrev Score := WithBot (WithTop Int)

/-- `float("inf")`. -/
def Score.pinf : Score := ((⊤ : WithTop Int) : WithBot (WithTop Int))

/-- A finite score. -/
def Score.num (n : Int) : Score := ((n : WithTop Int) : WithBot (WithTop Int))

/-- Python values, as far as the engine's configurable fields see them. -/
inductive PyObj where
  | intV (n : Int)
  | boolV (b : Bool)
  | strV (s : String)
  | floatV (n : Int)
  | noneV
deriving DecidableEq, Repr

/-- `isinstance(x, int)`: Python bools are ints. -/
def PyObj.isInt : PyObj → Bool
  | .intV _ => true
  | .boolV _ => true
  | _ => false

/-- `isinstance(x, bool)`. -/
def PyObj.isBool : PyObj → Bool
  | .boolV _ => true
  | _ => false

/-- Python truthiness. -/
def PyObj.truthy : PyObj → Bool
  | .intV n => n != 0
  | .boolV b => b
  | .strV s => s ≠ ""
  | .floatV n => n != 0
  | .noneV => false

/-- The integer content of a value that passed the `isinstance(_, int)`
check (`True` counts as 1, `False` as 0). -/
def PyObj.toInt : PyObj → Int
  | .intV n => n
  | .boolV b => if b then 1 else 0
  | _ => 0

/-- The python exceptions the engine raises. -/
inductive PyErr where
  | typeError
  | valueError
deriving DecidableEq, Repr

/-- `chess.Move.null()`. -/
def nullMove : Mv := ⟨0, 0⟩

/-- Generic dict lookup (insertion-ordered association list). -/
def dFind {α β : Type} [DecidableEq α] : List (α × β) → α → Option β
  | [], _ => none
  | (a, v) :: rest, k => if a = k then some v else dFind rest k

/-- Generic dict assignment: overwrite in place or append. -/
def dStore {α β : Type} [DecidableEq α] : List (α × β) → α → β → List (α × β)
  | [], k, v => [(k, v)]
  | (a, w) :: rest, k, v =>
      if a = k then (a, v) :: rest else (a, w) :: dStore rest k v

/-- The mutable attributes of a `MiniMax` engine instance (together with
the inherited `BaseEngine` fields that the claims mention). -/
structure EngineState (σ : Type) where
  color : PyObj
  depthv : Int
  best_move : Mv
  alpha_beta_pruning : Bool
  alpha : Score
  beta : Score
  move_ordering : Bool
  stored_values : List (Nat × Score)
  material_difference : List Int
  evaluations : List (σ × Int)
  legal_moves : List (Mv × Int)

/-- `MiniMax.__init__(color, depth)`. -/
def MiniMax.mkEngine (σ : Type) (color : PyObj) (depth : Int) : EngineState σ :=
  { color := color
    depthv := depth
    best_move := nullMove
    alpha_beta_pruning := true
    alpha := ⊥
    beta := Score.pinf
    move_ordering := true
    stored_values := []
    material_difference := []
    evaluations := []
    legal_moves := [] }

/-- The `depth` property setter: a non-int is rejected with `TypeError`
and an int below 1 with `ValueError`, both before `_depth` is assigned,
so the state is returned unchanged on failure. -/
def MiniMax.setDepth (es : EngineState σ) (depth_val : PyObj) :
    EngineState σ × Option PyErr :=
  if depth_val.isInt = false then (es, some .typeError)
  else if depth_val.toInt < 1 then (es, some .valueError)
  else ({ es with depthv := depth_val.toInt }, none)

/-- `BaseEngine.reset_move_variables`. -/
def reset_move_variables (es : EngineState σ) : EngineState σ :=
  { es with legal_moves := [] }

/-- `BaseEngine.reset_game_variables`. -/
def reset_game_variables (es : EngineState σ) : EngineState σ :=
  { es with material_difference := [], evaluations := [] }

/-- The externally owned board with its undo stack: `push_uci` applies a
move and remembers the previous state, `pop` restores it and hands the
popped move back (popping an empty stack is a python error and never
happens inside the search loop; the model returns a dummy there). -/
structure BoardState (σ : Type) where
  cur : σ
  stack : List (Mv × σ)
deriving Repr

def BoardState.push (R : Rules σ) (b : BoardState σ) (m : Mv) : BoardState σ :=
  { cur := R.apply b.cur m, stack := (m, b.cur) :: b.stack }

def BoardState.pop : BoardState σ → Mv × BoardState σ
  | ⟨cur, []⟩ => (nullMove, ⟨cur, []⟩)
  | ⟨_, (m, s) :: rest⟩ => (m, ⟨s, rest⟩)

def mkBoard (s : σ) : BoardState σ := ⟨s, []⟩

/-- A push/pop event of the search, for stating the restoration claim. -/
inductive TraceEv where
  | pushE (m : Mv)
  | popE (m : Mv)
deriving DecidableEq, Repr

/-- Replaying a trace against a stack of pending moves: a pop must match
the most recently pushed move. -/
def replay : List TraceEv → List Mv → Option (List Mv)
  | [], st => some st
  | .pushE m :: rest, st => replay rest (m :: st)
  | .popE m :: rest, st =>
      match st with
      | top :: st' => if top = m then replay rest st' else none
      | [] => none

/-- The fixed per-run inputs of a search: the rules engine, the
move-ordering heuristic (`self.ordering_heuristic`) and the fixed
outcome of `random.shuffle` on the legal-move list of each position. -/
structure SearchCtx (σ : Type) where
  R : Rules σ
  heuristic : σ → List Mv
  shuffle : σ → List Mv

/-- The move list the loop iterates: the ordering heuristic when
`move_ordering` is set, the shuffled legal-move list otherwise. -/
def orderedMoves (C : SearchCtx σ) (mo : Bool) (s : σ) : List Mv :=
  if mo then C.heuristic s else C.shuffle s

/-- `self.evaluation_function.evaluate(board)`: return the static value
and record it in the evaluator's `evaluations` dict. -/
def leafEval [DecidableEq σ] (C : SearchCtx σ) (es : EngineState σ) (b : BoardState σ) :
    Score × EngineState σ × BoardState σ × List TraceEv :=
  (Score.num (C.R.eval b.cur),
   { es with evaluations := dStore es.evaluations b.cur (C.R.eval b.cur) }, b, [])

/-- Store a search value in the transposition table under a
fingerprint (`self.transposition_table.stored_values[hash_] = val`). -/
def storeVal (es : EngineState σ) (h : Nat) (v : Score) : EngineState σ :=
  { es with stored_values := dStore es.stored_values h v }

/-- Record a move as the engine's best (`self.best_move = popped_move`). -/
def recBest (es : EngineState σ) (m : Mv) : EngineState σ :=
  { es with best_move := m }

@[simp] theorem storeVal_color (es : EngineState σ) (h : Nat) (v : Score) :
    (storeVal es h v).color = es.color := rfl

@[simp] theorem storeVal_depthv (es : EngineState σ) (h : Nat) (v : Score) :
    (storeVal es h v).depthv = es.depthv := rfl

@[simp] theorem storeVal_pruning (es : EngineState σ) (h : Nat) (v : Score) :
    (storeVal es h v).alpha_beta_pruning = es.alpha_beta_pruning := rfl

@[simp] theorem storeVal_ordering (es : EngineState σ) (h : Nat) (v : Score) :
    (storeVal es h v).move_ordering = es.move_ordering := rfl

@[simp] theorem storeVal_best (es : EngineState σ) (h : Nat) (v : Score) :
    (storeVal es h v).best_move = es.best_move := rfl

@[simp] theorem storeVal_stored (es : EngineState σ) (h : Nat) (v : Score) :
    (storeVal es h v).stored_values = dStore es.stored_values h v := rfl

@[simp] theorem recBest_color (es : EngineState σ) (m : Mv) :
    (recBest es m).color = es.color := rfl

@[simp] theorem recBest_depthv (es : EngineState σ) (m : Mv) :
    (recBest es m).depthv = es.depthv := rfl

@[simp] theorem recBest_pruning (es : EngineState σ) (m : Mv) :
    (recBest es m).alpha_beta_pruning = es.alpha_beta_pruning := rfl

@[simp] theorem recBest_ordering (es : EngineState σ) (m : Mv) :
    (recBest es m).move_ordering = es.move_ordering := rfl

@[simp] theorem recBest_best (es : EngineState σ) (m : Mv) :
    (recBest es m).best_move = m := rfl

@[simp] theorem recBest_stored (es : EngineState σ) (m : Mv) :
    (recBest es m).stored_values = es.stored_values := rfl

/-- The transposition-table consultation of one loop iteration: hash
the pushed board; on a hit reuse the stored value, otherwise recurse and
store the result under the fingerprint. -/
def ttProbe (C : SearchCtx σ)
    (rec : EngineState σ → BoardState σ → Score → Score →
      Score × EngineState σ × BoardState σ × List TraceEv)
    (es : EngineState σ) (b1 : BoardState σ) (alpha beta : Score) :
    Score × EngineState σ × BoardState σ × List TraceEv :=
  match dFind es.stored_values (C.R.hash b1.cur) with
  | some v => (v, es, b1, [])
  | none =>
      let r := rec es b1 alpha beta
      (r.1, storeVal r.2.1 (C.R.hash b1.cur) r.1, r.2.2.1, r.2.2.2)

/-- The maximizing arm of the `for move in legal_moves` loop of
`MiniMax.minimax`, with the recursive call abstracted as `rec`;
`cdepth` is the `depth` argument of the enclosing call.  Each iteration
pushes the move, consults/extends the transposition table, pops, updates
the running maximum (recording the move as best when the value strictly
improves, the engine's color is truthy and this is the root ply), and
with pruning enabled raises alpha and breaks when `beta <= alpha`. -/
def mmLoopMax (C : SearchCtx σ) (cdepth : Int)
    (rec : EngineState σ → BoardState σ → Score → Score →
      Score × EngineState σ × BoardState σ × List TraceEv) :
    List Mv → EngineState σ → BoardState σ → Score → Score → Score →
      Score × EngineState σ × BoardState σ × List TraceEv
  | [], es, b, maxVal, _, _ => (maxVal, es, b, [])
  | move :: rest, es, b, maxVal, alpha, beta =>
      let p := ttProbe C rec es (b.push C.R move) alpha beta
      let val := p.1
      let es1 := p.2.1
      let popped := p.2.2.1.pop.1
      let b3 := p.2.2.1.pop.2
      let maxVal' := if maxVal < val then val else maxVal
      let es2 :=
        if maxVal < val then
          (if es1.color.truthy = true ∧ cdepth = es1.depthv then
            recBest es1 popped else es1)
        else es1
      let step := TraceEv.pushE move :: (p.2.2.2 ++ [TraceEv.popE popped])
      if es2.alpha_beta_pruning then
        let alpha' := max alpha val
        if beta ≤ alpha' then (maxVal', es2, b3, step)
        else
          let r := mmLoopMax C cdepth rec rest es2 b3 maxVal' alpha' beta
          (r.1, r.2.1, r.2.2.1, step ++ r.2.2.2)
      else
        let r := mmLoopMax C cdepth rec rest es2 b3 maxVal' alpha beta
        (r.1, r.2.1, r.2.2.1, step ++ r.2.2.2)

/-- The minimizing arm, mirroring the source's `elif not maximizing`
branch: running minimum, best-move recording when the engine's color is
falsy, beta lowered, break when `beta <= alpha`. -/
def mmLoopMin (C : SearchCtx σ) (cdepth : Int)
    (rec : EngineState σ → BoardState σ → Score → Score →
      Score × EngineState σ × BoardState σ × List TraceEv) :
    List Mv → EngineState σ → BoardState σ → Score → Score → Score →
      Score × EngineState σ × BoardState σ × List TraceEv
  | [], es, b, minVal, _, _ => (minVal, es, b, [])
  | move :: rest, es, b, minVal, alpha, beta =>
      let p := ttProbe C rec es (b.push C.R move) alpha beta
      let val := p.1
      let es1 := p.2.1
      let popped := p.2.2.1.pop.1
      let b3 := p.2.2.1.pop.2
      let minVal' := if val < minVal then val else minVal
      let es2 :=
        if val < minVal then
          (if es1.color.truthy = false ∧ cdepth = es1.depthv then
            recBest es1 popped else es1)
        else es1
      let step := TraceEv.pushE move :: (p.2.2.2 ++ [TraceEv.popE popped])
      if es2.alpha_beta_pruning then
        let beta' := min beta val
        if beta' ≤ alpha then (minVal', es2, b3, step)
        else
          let r := mmLoopMin C cdepth rec rest es2 b3 minVal' alpha beta'
          (r.1, r.2.1, r.2.2.1, step ++ r.2.2.2)
      else
        let r := mmLoopMin C cdepth rec rest es2 b3 minVal' alpha beta
        (r.1, r.2.1, r.2.2.1, step ++ r.2.2.2)

/-- `MiniMax.minimax`, with the search depth as structural fuel (the
python `depth` argument of a call is the fuel cast to `Int`). -/
def minimax [DecidableEq σ] (C : SearchCtx σ) :
    Nat → EngineState σ → BoardState σ → Bool → Score → Score →
      Score × EngineState σ × BoardState σ × List TraceEv
  | 0, es, b, _, _, _ => leafEval C es b
  | fuel + 1, es, b, maximizing, alpha, beta =>
      if C.R.over b.cur then leafEval C es b
      else if maximizing then
        mmLoopMax C ((fuel + 1 : Nat) : Int)
          (fun es' b' a' b'' => minimax C fuel es' b' false a' b'')
          (orderedMoves C es.move_ordering b.cur) es b ⊥ alpha beta
      else
        mmLoopMin C ((fuel + 1 : Nat) : Int)
          (fun es' b' a' b'' => minimax C fuel es' b' true a' b'')
          (orderedMoves C es.move_ordering b.cur) es b Score.pinf alpha beta

/-- `MiniMax.evaluate`: a non-bool `color` raises `ValueError` before
any search; otherwise run `minimax` at the configured depth with the
stored alpha/beta and append a post-search static evaluation to
`material_difference`. -/
def MiniMax.evaluate [DecidableEq σ] (C : SearchCtx σ) (es : EngineState σ) (b : BoardState σ) :
    EngineState σ × BoardState σ × Option PyErr :=
  match es.color with
  | .boolV c =>
      let r := minimax C es.depthv.toNat es b c es.alpha es.beta
      ({ r.2.1 with
          material_difference := r.2.1.material_difference ++ [C.R.eval r.2.2.1.cur]
          evaluations := dStore r.2.1.evaluations r.2.2.1.cur (C.R.eval r.2.2.1.cur) },
       r.2.2.1, none)
  | _ => (es, b, some .valueError)

/-- `MiniMax.move`: evaluate, then hand back the recorded best move. -/
def MiniMax.move [DecidableEq σ] (C : SearchCtx σ) (es : EngineState σ) (b : BoardState σ) :
    Mv × EngineState σ × BoardState σ × Option PyErr :=
  let r := MiniMax.evaluate C es b
  (r.1.best_move, r.1, r.2.1, r.2.2)

/-! ### C7: the board is restored on every return path -/

theorem push_pop (R : Rules σ) (b : BoardState σ) (m : Mv) :
    (b.push R m).pop = (m, b) := rfl

theorem replay_append (t1 t2 : List TraceEv) (st : List Mv) :
    replay (t1 ++ t2) st =
      match replay t1 st with
      | some st' => replay t2 st'
      | none => none := by
  induction t1 generalizing st with
  | nil => rfl
  | cons e t1 ih =>
      cases e with
      | pushE m =>
          simp only [List.cons_append, replay]
          exact ih (m :: st)
      | popE m =>
          cases st with
          | nil => rfl
          | cons top st' =>
              simp only [List.cons_append, replay]
              by_cases htop : top = m
              · rw [if_pos htop, if_pos htop]
                exact ih st'
              · rw [if_neg htop, if_neg htop]

theorem replay_step (tr1 tr2 : List TraceEv) (m : Mv)
    (h1 : ∀ st, replay tr1 st = some st) (h2 : ∀ st, replay tr2 st = some st) :
    ∀ st, replay ((TraceEv.pushE m :: (tr1 ++ [TraceEv.popE m])) ++ tr2) st = some st := by
  intro st
  have hassoc : (TraceEv.pushE m :: (tr1 ++ [TraceEv.popE m])) ++ tr2
      = TraceEv.pushE m :: (tr1 ++ (TraceEv.popE m :: tr2)) := by
    simp
  rw [hassoc]
  show replay (tr1 ++ (TraceEv.popE m :: tr2)) (m :: st) = some st
  rw [replay_append, h1 (m :: st)]
  simp only [replay, if_pos rfl]
  exact h2 st

/-- Board restoration and balanced tracing for one table probe. -/
theorem ttProbe_restores (C : SearchCtx σ)
    (rec : EngineState σ → BoardState σ → Score → Score →
      Score × EngineState σ × BoardState σ × List TraceEv)
    (es : EngineState σ) (b1 : BoardState σ) (alpha beta : Score)
    (hrec : (rec es b1 alpha beta).2.2.1 = b1 ∧
      ∀ st, replay (rec es b1 alpha beta).2.2.2 st = some st) :
    (ttProbe C rec es b1 alpha beta).2.2.1 = b1 ∧
    ∀ st, replay (ttProbe C rec es b1 alpha beta).2.2.2 st = some st := by
  unfold ttProbe
  cases hdf : dFind es.stored_values (C.R.hash b1.cur) with
  | some v => exact ⟨rfl, fun st => rfl⟩
  | none => exact hrec

theorem mmLoopMax_restores (C : SearchCtx σ) (cdepth : Int)
    (rec : EngineState σ → BoardState σ → Score → Score →
      Score × EngineState σ × BoardState σ × List TraceEv)
    (hrec : ∀ es b alpha beta, (rec es b alpha beta).2.2.1 = b ∧
      ∀ st, replay (rec es b alpha beta).2.2.2 st = some st) :
    ∀ (ms : List Mv) (es : EngineState σ) (b : BoardState σ) (acc alpha beta : Score),
      (mmLoopMax C cdepth rec ms es b acc alpha beta).2.2.1 = b ∧
      ∀ st, replay (mmLoopMax C cdepth rec ms es b acc alpha beta).2.2.2 st = some st := by
  intro ms
  induction ms with
  | nil => exact fun es b acc alpha beta => ⟨rfl, fun st => rfl⟩
  | cons move rest ih =>
      intro es b acc alpha beta
      have hpr := ttProbe_restores C rec es (b.push C.R move) alpha beta
        (hrec es (b.push C.R move) alpha beta)
      simp only [mmLoopMax, hpr.1, push_pop]
      set p := ttProbe C rec es (b.push C.R move) alpha beta with hp
      set es2 := if acc < p.1 then
          (if p.2.1.color.truthy = true ∧ cdepth = p.2.1.depthv then
            recBest p.2.1 move else p.2.1)
        else p.2.1 with hes2
      by_cases hab : es2.alpha_beta_pruning = true
      · rw [if_pos hab]
        by_cases hbr : beta ≤ max alpha p.1
        · rw [if_pos hbr]
          refine ⟨rfl, fun st => ?_⟩
          simpa using replay_step p.2.2.2 [] move hpr.2 (fun _ => rfl) st
        · rw [if_neg hbr]
          have hih := ih es2 b (if acc < p.1 then p.1 else acc) (max alpha p.1) beta
          refine ⟨hih.1, fun st => ?_⟩
          exact replay_step p.2.2.2 _ move hpr.2 hih.2 st
      · rw [if_neg hab]
        have hih := ih es2 b (if acc < p.1 then p.1 else acc) alpha beta
        refine ⟨hih.1, fun st => ?_⟩
        exact replay_step p.2.2.2 _ move hpr.2 hih.2 st

theorem mmLoopMin_restores (C : SearchCtx σ) (cdepth : Int)
    (rec : EngineState σ → BoardState σ → Score → Score →
      Score × EngineState σ × BoardState σ × List TraceEv)
    (hrec : ∀ es b alpha beta, (rec es b alpha beta).2.2.1 = b ∧
      ∀ st, replay (rec es b alpha beta).2.2.2 st = some st) :
    ∀ (ms : List Mv) (es : EngineState σ) (b : BoardState σ) (acc alpha beta : Score),
      (mmLoopMin C cdepth rec ms es b acc alpha beta).2.2.1 = b ∧
      ∀ st, replay (mmLoopMin C cdepth rec ms es b acc alpha beta).2.2.2 st = some st := by
  intro ms
  induction ms with
  | nil => exact fun es b acc alpha beta => ⟨rfl, fun st => rfl⟩
  | cons move rest ih =>
      intro es b acc alpha beta
      have hpr := ttProbe_restores C rec es (b.push C.R move) alpha beta
        (hrec es (b.push C.R move) alpha beta)
      simp only [mmLoopMin, hpr.1, push_pop]
      set p := ttProbe C rec es (b.push C.R move) alpha beta with hp
      set es2 := if p.1 < acc then
          (if p.2.1.color.truthy = false ∧ cdepth = p.2.1.depthv then
            recBest p.2.1 move else p.2.1)
        else p.2.1 with hes2
      by_cases hab : es2.alpha_beta_pruning = true
      · rw [if_pos hab]
        by_cases hbr : min beta p.1 ≤ alpha
        · rw [if_pos hbr]
          refine ⟨rfl, fun st => ?_⟩
          simpa using replay_step p.2.2.2 [] move hpr.2 (fun _ => rfl) st
        · rw [if_neg hbr]
          have hih := ih es2 b (if p.1 < acc then p.1 else acc) alpha (min beta p.1)
          refine ⟨hih.1, fun st => ?_⟩
          exact replay_step p.2.2.2 _ move hpr.2 hih.2 st
      · rw [if_neg hab]
        have hih := ih es2 b (if p.1 < acc then p.1 else acc) alpha beta
        refine ⟨hih.1, fun st => ?_⟩
        exact replay_step p.2.2.2 _ move hpr.2 hih.2 st

theorem minimax_restores_aux [DecidableEq σ] (C : SearchCtx σ) :
    ∀ (fuel : Nat) (es : EngineState σ) (b : BoardState σ) (maximizing : Bool)
      (alpha beta : Score),
      (minimax C fuel es b maximizing alpha beta).2.2.1 = b ∧
      ∀ st, replay (minimax C fuel es b maximizing alpha beta).2.2.2 st = some st := by
  intro fuel
  induction fuel with
  | zero => exact fun es b maximizing alpha beta => ⟨rfl, fun st => rfl⟩
  | succ fuel ih =>
      intro es b maximizing alpha beta
      show (minimax C (fuel + 1) es b maximizing alpha beta).2.2.1 = b ∧ _
      rw [minimax]
      by_cases hov : C.R.over b.cur = true
      · rw [if_pos hov]
        exact ⟨rfl, fun st => rfl⟩
      · rw [if_neg hov]
        by_cases hmx : maximizing = true
        · rw [if_pos hmx]
          exact mmLoopMax_restores C _ _ (fun es' b' a' b'' => ih es' b' false a' b'')
            _ es b _ alpha beta
        · rw [if_neg hmx]
          exact mmLoopMin_restores C _ _ (fun es' b' a' b'' => ih es' b' true a' b'')
            _ es b _ alpha beta

/-- C7: whenever `MiniMax.minimax` returns — including returns reached
through an alpha-beta pruning break — the board it was handed is
restored exactly to its pre-call state, and the push/pop trace of the
search replays to the empty stack: every move the search applied was
undone exactly once, in last-in-first-out order. -/
theorem minimax_restores_board [DecidableEq σ] (C : SearchCtx σ) (fuel : Nat)
    (es : EngineState σ) (b : BoardState σ) (maximizing : Bool) (alpha beta : Score) :
    (minimax C fuel es b maximizing alpha beta).2.2.1 = b ∧
    replay (minimax C fuel es b maximizing alpha beta).2.2.2 [] = some [] :=
  ⟨(minimax_restores_aux C fuel es b maximizing alpha beta).1,
   (minimax_restores_aux C fuel es b maximizing alpha beta).2 []⟩

/-! ### C8 and C10: configuration errors and best-move persistence -/

/-- C8: configuration errors are rejected synchronously and atomically.
Setting `depth` to a non-integer raises `TypeError` and to an integer
below 1 raises `ValueError`, in both cases before `_depth` is mutated,
so the state comes back unchanged; and `evaluate` with a color that is
not a bool raises `ValueError` without running any search, leaving the
engine state and the board untouched. -/
theorem config_errors_rejected [DecidableEq σ] (C : SearchCtx σ) :
    (∀ (es : EngineState σ) (v : PyObj), v.isInt = false →
        MiniMax.setDepth es v = (es, some PyErr.typeError))
    ∧ (∀ (es : EngineState σ) (v : PyObj), v.isInt = true → v.toInt < 1 →
        MiniMax.setDepth es v = (es, some PyErr.valueError))
    ∧ (∀ (es : EngineState σ) (b : BoardState σ), es.color.isBool = false →
        MiniMax.evaluate C es b = (es, b, some PyErr.valueError)) := by
  refine ⟨?_, ?_, ?_⟩
  · intro es v hv
    unfold MiniMax.setDepth
    rw [if_pos hv]
  · intro es v hv hlt
    unfold MiniMax.setDepth
    rw [if_neg (by simp [hv]), if_pos hlt]
  · intro es b hc
    unfold MiniMax.evaluate
    cases hcc : es.color with
    | boolV c =>
        rw [hcc] at hc
        simp [PyObj.isBool] at hc
    | intV n => rfl
    | strV s => rfl
    | floatV n => rfl
    | noneV => rfl

theorem minimax_over_best [DecidableEq σ] (C : SearchCtx σ) (fuel : Nat)
    (es : EngineState σ) (b : BoardState σ) (maximizing : Bool) (alpha beta : Score)
    (hov : C.R.over b.cur = true) :
    (minimax C fuel es b maximizing alpha beta).2.1.best_move = es.best_move := by
  cases fuel with
  | zero => rfl
  | succ fuel =>
      rw [minimax, if_pos hov]
      rfl

/-- C10: `best_move` starts as the null-move sentinel, neither
`reset_move_variables` nor `reset_game_variables` resets it, and a
`move` call whose search records no best move (a game-over root, e.g.
zero legal moves) returns the best move recorded by the most recent
earlier search — the null sentinel only if no search ever recorded
one. -/
theorem best_move_persistence [DecidableEq σ] (C : SearchCtx σ) :
    (∀ (col : PyObj) (d : Int), (MiniMax.mkEngine σ col d).best_move = nullMove)
    ∧ (∀ es : EngineState σ, (reset_move_variables es).best_move = es.best_move)
    ∧ (∀ es : EngineState σ, (reset_game_variables es).best_move = es.best_move)
    ∧ (∀ (es : EngineState σ) (b : BoardState σ) (c : Bool), es.color = PyObj.boolV c →
        C.R.over b.cur = true → (MiniMax.move C es b).1 = es.best_move) := by
  refine ⟨fun _ _ => rfl, fun _ => rfl, fun _ => rfl, ?_⟩
  intro es b c hc hov
  have hbest := minimax_over_best C es.depthv.toNat es b c es.alpha es.beta hov
  show (MiniMax.evaluate C es b).1.best_move = es.best_move
  unfold MiniMax.evaluate
  rw [hc]
  exact hbest

/-- A rules-engine instance whose every position is game over. -/
def RexOver : Rules Nat where
  moves := fun _ => []
  isCapture := fun _ _ => false
  pieceAt := fun _ _ => none
  apply := fun s _ => s
  over := fun _ => true
  eval := fun _ => 0
  hash := fun s => s

def CexOver : SearchCtx Nat := ⟨RexOver, fun _ => [], fun _ => []⟩

/-- Witness for C8: a string depth raises `TypeError`, depth 0 raises
`ValueError` (engine unchanged in both), and evaluating with the
non-bool color `1` raises `ValueError`. -/
theorem config_errors_rejected_witness :
    MiniMax.setDepth (MiniMax.mkEngine Nat (PyObj.boolV true) 2) (PyObj.strV "x")
      = (MiniMax.mkEngine Nat (PyObj.boolV true) 2, some PyErr.typeError)
    ∧ MiniMax.setDepth (MiniMax.mkEngine Nat (PyObj.boolV true) 2) (PyObj.intV 0)
      = (MiniMax.mkEngine Nat (PyObj.boolV true) 2, some PyErr.valueError)
    ∧ MiniMax.evaluate CexOver (MiniMax.mkEngine Nat (PyObj.intV 1) 2) (mkBoard 0)
      = (MiniMax.mkEngine Nat (PyObj.intV 1) 2, mkBoard 0, some PyErr.valueError) :=
  ⟨(config_errors_rejected CexOver).1 _ _ (by decide),
   (config_errors_rejected CexOver).2.1 _ _ (by decide) (by decide),
   (config_errors_rejected CexOver).2.2 _ _ (by decide)⟩

/-- An engine that has already recorded a best move in an earlier
search. -/
def esPrior : EngineState Nat :=
  { MiniMax.mkEngine Nat (PyObj.boolV true) 2 with best_move := mQxP }

/-- Witness for C10: a fresh engine holds the null move; on a game-over
board, `move` returns the previously recorded best move. -/
theorem best_move_persistence_witness :
    (MiniMax.mkEngine Nat (PyObj.boolV true) 2).best_move = nullMove ∧
    (MiniMax.move CexOver esPrior (mkBoard 0)).1 = mQxP :=
  ⟨(best_move_persistence CexOver).1 _ _,
   (best_move_persistence CexOver).2.2.2 esPrior (mkBoard 0) true rfl rfl⟩

/-! ### C1: alpha-beta pruning and the transposition table

A depth-3 game in which pruning changes the returned best move.  States
are numbered; state 5 is a transposition of state 4 — a different node
of the game tree with the same piece occupancy, so the Zobrist scheme
gives both the same fingerprint.  Under pruning, the search of state 4
is cut off after its first child (storing the truncated value 5 for its
fingerprint); the later probe of state 5 then reuses 5 instead of the
true value 10, so the root sticks with its first move.  Without pruning
the stored value is exact (10) and the root prefers its second move. -/

def RexAB : Rules Nat where
  moves := fun s =>
    if s = 0 then [⟨1, 1⟩, ⟨2, 2⟩]
    else if s = 1 then [⟨3, 3⟩, ⟨4, 4⟩]
    else if s = 2 then [⟨5, 5⟩, ⟨6, 6⟩]
    else if s = 3 then [⟨7, 7⟩]
    else if s = 4 then [⟨8, 8⟩, ⟨9, 9⟩]
    else if s = 5 then [⟨11, 11⟩, ⟨12, 12⟩]
    else if s = 6 then [⟨10, 10⟩]
    else []
  isCapture := fun _ _ => false
  pieceAt := fun _ _ => none
  apply := fun s m =>
    if s = 0 ∧ m = ⟨1, 1⟩ then 1
    else if s = 0 ∧ m = ⟨2, 2⟩ then 2
    else if s = 1 ∧ m = ⟨3, 3⟩ then 3
    else if s = 1 ∧ m = ⟨4, 4⟩ then 4
    else if s = 2 ∧ m = ⟨5, 5⟩ then 5
    else if s = 2 ∧ m = ⟨6, 6⟩ then 6
    else if s = 3 ∧ m = ⟨7, 7⟩ then 7
    else if s = 4 ∧ m = ⟨8, 8⟩ then 8
    else if s = 4 ∧ m = ⟨9, 9⟩ then 9
    else if s = 5 ∧ m = ⟨11, 11⟩ then 11
    else if s = 5 ∧ m = ⟨12, 12⟩ then 12
    else if s = 6 ∧ m = ⟨10, 10⟩ then 10
    else 99
  over := fun _ => false
  eval := fun s =>
    if s = 7 then 5
    else if s = 8 then 5
    else if s = 9 then 10
    else if s = 10 then 7
    else if s = 11 then 5
    else if s = 12 then 10
    else 0
  hash := fun s => if s = 5 then 4 else s

def CexAB : SearchCtx Nat := ⟨RexAB, RexAB.moves, fun _ => []⟩

/-- Counterexample to C1 as stated: with move ordering and all random
choices held fixed (`move_ordering` on, deterministic heuristic), the
engine with pruning enabled returns the first root move while the same
engine with pruning disabled returns the second one. -/
theorem minimax_pruning_changes_best_move :
    (MiniMax.move CexAB (MiniMax.mkEngine Nat (PyObj.boolV true) 3) (mkBoard 0)).1
      = ⟨1, 1⟩
    ∧ (MiniMax.move CexAB
        { MiniMax.mkEngine Nat (PyObj.boolV true) 3 with alpha_beta_pruning := false }
        (mkBoard 0)).1 = ⟨2, 2⟩
    ∧ (MiniMax.move CexAB (MiniMax.mkEngine Nat (PyObj.boolV true) 3) (mkBoard 0)).1
      ≠ (MiniMax.move CexAB
          { MiniMax.mkEngine Nat (PyObj.boolV true) 3 with alpha_beta_pruning := false }
          (mkBoard 0)).1 := by
  refine ⟨by decide, by decide, by decide⟩

/-! ### Pure (table-free) companions of the search

`abLoopMax`/`abLoopMin` mirror the engine's loops without the
transposition table: fail-soft alpha-beta with the same strict
improvement test, best-move recording under a constant recording flag
`rc`, and the same break condition.  `abP` is the value they compute,
`abPBest` the recorded move, and `mmPure` the plain minimax value. -/

def abLoopMax (prune : Bool) (recv : Mv → Score → Score → Score) (rc : Bool) :
    List Mv → Score → Score → Score → Mv → Score × Mv
  | [], acc, _, _, bm => (acc, bm)
  | m :: rest, acc, alpha, beta, bm =>
      let val := recv m alpha beta
      let acc' := if acc < val then val else acc
      let bm' := if acc < val then (if rc then m else bm) else bm
      if prune then
        let alpha' := max alpha val
        if beta ≤ alpha' then (acc', bm')
        else abLoopMax prune recv rc rest acc' alpha' beta bm'
      else abLoopMax prune recv rc rest acc' alpha beta bm'

def abLoopMin (prune : Bool) (recv : Mv → Score → Score → Score) (rc : Bool) :
    List Mv → Score → Score → Score → Mv → Score × Mv
  | [], acc, _, _, bm => (acc, bm)
  | m :: rest, acc, alpha, beta, bm =>
      let val := recv m alpha beta
      let acc' := if val < acc then val else acc
      let bm' := if val < acc then (if rc then m else bm) else bm
      if prune then
        let beta' := min beta val
        if beta' ≤ alpha then (acc', bm')
        else abLoopMin prune recv rc rest acc' alpha beta' bm'
      else abLoopMin prune recv rc rest acc' alpha beta bm'

def abP (C : SearchCtx σ) (mo prune : Bool) : Nat → σ → Bool → Score → Score → Score
  | 0, s, _, _, _ => Score.num (C.R.eval s)
  | fuel + 1, s, maximizing, alpha, beta =>
      if C.R.over s then Score.num (C.R.eval s)
      else if maximizing then
        (abLoopMax prune (fun m a b => abP C mo prune fuel (C.R.apply s m) false a b)
          false (orderedMoves C mo s) ⊥ alpha beta nullMove).1
      else
        (abLoopMin prune (fun m a b => abP C mo prune fuel (C.R.apply s m) true a b)
          false (orderedMoves C mo s) Score.pinf alpha beta nullMove).1

/-- The best move a node records, for an engine whose color has
truthiness `colT` (the maximizing arm records when the color is truthy,
the minimizing arm when it is falsy). -/
def abPBest (C : SearchCtx σ) (mo prune colT : Bool) :
    Nat → σ → Bool → Score → Score → Mv → Mv
  | 0, _, _, _, _, bm => bm
  | fuel + 1, s, maximizing, alpha, beta, bm =>
      if C.R.over s then bm
      else if maximizing then
        (abLoopMax prune (fun m a b => abP C mo prune fuel (C.R.apply s m) false a b)
          colT (orderedMoves C mo s) ⊥ alpha beta bm).2
      else
        (abLoopMin prune (fun m a b => abP C mo prune fuel (C.R.apply s m) true a b)
          (!colT) (orderedMoves C mo s) Score.pinf alpha beta bm).2

def mmPure (C : SearchCtx σ) (mo : Bool) : Nat → σ → Bool → Score
  | 0, s, _ => Score.num (C.R.eval s)
  | fuel + 1, s, maximizing =>
      if C.R.over s then Score.num (C.R.eval s)
      else if maximizing then
        (orderedMoves C mo s).foldl
          (fun acc m => max acc (mmPure C mo fuel (C.R.apply s m) false)) ⊥
      else
        (orderedMoves C mo s).foldl
          (fun acc m => min acc (mmPure C mo fuel (C.R.apply s m) true)) Score.pinf

/-- The positions of the search tree explored from `s` at the given
depth, with the move ordering the engine uses. -/
def treeNodes (C : SearchCtx σ) (mo : Bool) : Nat → σ → List σ
  | 0, s => [s]
  | fuel + 1, s =>
      if C.R.over s then [s]
      else s :: (orderedMoves C mo s).flatMap (fun m => treeNodes C mo fuel (C.R.apply s m))

theorem pinf_eq_top : Score.pinf = (⊤ : Score) := rfl

theorem ite_max (acc val : Score) : (if acc < val then val else acc) = max acc val := by
  by_cases h : acc < val
  · rw [if_pos h, max_eq_right h.le]
  · rw [if_neg h, max_eq_left (le_of_not_lt h)]

theorem ite_min (val acc : Score) : (if val < acc then val else acc) = min acc val := by
  by_cases h : val < acc
  · rw [if_pos h, min_eq_right h.le]
  · rw [if_neg h, min_eq_left (le_of_not_lt h)]

/-- The value component of the pure loop ignores the recording flag and
the best-move accumulator. -/
theorem abLoopMax_fst (prune : Bool) (recv : Mv → Score → Score → Score)
    (rc rc' : Bool) :
    ∀ (ms : List Mv) (acc alpha beta : Score) (bm bm' : Mv),
      (abLoopMax prune recv rc ms acc alpha beta bm).1
        = (abLoopMax prune recv rc' ms acc alpha beta bm').1 := by
  intro ms
  induction ms with
  | nil => intro acc alpha beta bm bm'; rfl
  | cons m rest ih =>
      intro acc alpha beta bm bm'
      simp only [abLoopMax]
      by_cases hp : prune = true
      · rw [if_pos hp, if_pos hp]
        by_cases hbr : beta ≤ max alpha (recv m alpha beta)
        · rw [if_pos hbr, if_pos hbr]
        · rw [if_neg hbr, if_neg hbr]
          exact ih _ _ _ _ _
      · rw [if_neg hp, if_neg hp]
        exact ih _ _ _ _ _

theorem abLoopMin_fst (prune : Bool) (recv : Mv → Score → Score → Score)
    (rc rc' : Bool) :
    ∀ (ms : List Mv) (acc alpha beta : Score) (bm bm' : Mv),
      (abLoopMin prune recv rc ms acc alpha beta bm).1
        = (abLoopMin prune recv rc' ms acc alpha beta bm').1 := by
  intro ms
  induction ms with
  | nil => intro acc alpha beta bm bm'; rfl
  | cons m rest ih =>
      intro acc alpha beta bm bm'
      simp only [abLoopMin]
      by_cases hp : prune = true
      · rw [if_pos hp, if_pos hp]
        by_cases hbr : min beta (recv m alpha beta) ≤ alpha
        · rw [if_pos hbr, if_pos hbr]
        · rw [if_neg hbr, if_neg hbr]
          exact ih _ _ _ _ _
      · rw [if_neg hp, if_neg hp]
        exact ih _ _ _ _ _

/-- With the recording flag off, the pure loop never changes the best
move. -/
theorem abLoopMax_snd_off (prune : Bool) (recv : Mv → Score → Score → Score) :
    ∀ (ms : List Mv) (acc alpha beta : Score) (bm : Mv),
      (abLoopMax prune recv false ms acc alpha beta bm).2 = bm := by
  intro ms
  induction ms with
  | nil => intro acc alpha beta bm; rfl
  | cons m rest ih =>
      intro acc alpha beta bm
      simp only [abLoopMax, if_neg (Bool.false_ne_true), ite_self]
      by_cases hp : prune = true
      · rw [if_pos hp]
        by_cases hbr : beta ≤ max alpha (recv m alpha beta)
        · rw [if_pos hbr]
        · rw [if_neg hbr]
          exact ih _ _ _ _
      · rw [if_neg hp]
        exact ih _ _ _ _

theorem abLoopMin_snd_off (prune : Bool) (recv : Mv → Score → Score → Score) :
    ∀ (ms : List Mv) (acc alpha beta : Score) (bm : Mv),
      (abLoopMin prune recv false ms acc alpha beta bm).2 = bm := by
  intro ms
  induction ms with
  | nil => intro acc alpha beta bm; rfl
  | cons m rest ih =>
      intro acc alpha beta bm
      simp only [abLoopMin, if_neg (Bool.false_ne_true), ite_self]
      by_cases hp : prune = true
      · rw [if_pos hp]
        by_cases hbr : min beta (recv m alpha beta) ≤ alpha
        · rw [if_pos hbr]
        · rw [if_neg hbr]
          exact ih _ _ _ _
      · rw [if_neg hp]
        exact ih _ _ _ _

theorem abLoopMax_congr (prune : Bool) (recv recv' : Mv → Score → Score → Score)
    (rc : Bool) :
    ∀ (ms : List Mv), (∀ m ∈ ms, ∀ a b, recv m a b = recv' m a b) →
    ∀ (acc alpha beta : Score) (bm : Mv),
      abLoopMax prune recv rc ms acc alpha beta bm
        = abLoopMax prune recv' rc ms acc alpha beta bm := by
  intro ms
  induction ms with
  | nil => intro _ acc alpha beta bm; rfl
  | cons m rest ih =>
      intro h acc alpha beta bm
      have hm : recv m alpha beta = recv' m alpha beta := h m (by simp) alpha beta
      simp only [abLoopMax, hm]
      have ih' := ih (fun m' hm' => h m' (by simp [hm']))
      by_cases hp : prune = true
      · rw [if_pos hp, if_pos hp]
        by_cases hbr : beta ≤ max alpha (recv' m alpha beta)
        · rw [if_pos hbr, if_pos hbr]
        · rw [if_neg hbr, if_neg hbr, ih']
      · rw [if_neg hp, if_neg hp, ih']

theorem abLoopMin_congr (prune : Bool) (recv recv' : Mv → Score → Score → Score)
    (rc : Bool) :
    ∀ (ms : List Mv), (∀ m ∈ ms, ∀ a b, recv m a b = recv' m a b) →
    ∀ (acc alpha beta : Score) (bm : Mv),
      abLoopMin prune recv rc ms acc alpha beta bm
        = abLoopMin prune recv' rc ms acc alpha beta bm := by
  intro ms
  induction ms with
  | nil => intro _ acc alpha beta bm; rfl
  | cons m rest ih =>
      intro h acc alpha beta bm
      have hm : recv m alpha beta = recv' m alpha beta := h m (by simp) alpha beta
      simp only [abLoopMin, hm]
      have ih' := ih (fun m' hm' => h m' (by simp [hm']))
      by_cases hp : prune = true
      · rw [if_pos hp, if_pos hp]
        by_cases hbr : min beta (recv' m alpha beta) ≤ alpha
        · rw [if_pos hbr, if_pos hbr]
        · rw [if_neg hbr, if_neg hbr, ih']
      · rw [if_neg hp, if_neg hp, ih']

theorem self_mem_treeNodes (C : SearchCtx σ) (mo : Bool) :
    ∀ (fuel : Nat) (s : σ), s ∈ treeNodes C mo fuel s := by
  intro fuel s
  cases fuel with
  | zero => simp [treeNodes]
  | succ fuel =>
      rw [treeNodes]
      by_cases hov : C.R.over s = true
      · rw [if_pos hov]
        simp
      · rw [if_neg hov]
        simp

theorem mem_treeNodes_child (C : SearchCtx σ) (mo : Bool) (fuel : Nat) (s : σ)
    (hov : ¬ C.R.over s = true) (m : Mv) (hm : m ∈ orderedMoves C mo s) (x : σ)
    (hx : x ∈ treeNodes C mo fuel (C.R.apply s m)) :
    x ∈ treeNodes C mo (fuel + 1) s := by
  rw [treeNodes, if_neg hov]
  exact List.mem_cons_of_mem _ (List.mem_flatMap.mpr ⟨m, hm, hx⟩)

/-! ### Finiteness of minimax values -/

/-- A finite (non-infinite) score. -/
def ScoreFin (v : Score) : Prop := ∃ n : Int, v = Score.num n

theorem ScoreFin.max {x y : Score} (hx : ScoreFin x) (hy : ScoreFin y) :
    ScoreFin (max x y) := by
  rcases max_choice x y with h | h <;> rw [h]
  · exact hx
  · exact hy

theorem ScoreFin.min {x y : Score} (hx : ScoreFin x) (hy : ScoreFin y) :
    ScoreFin (min x y) := by
  rcases min_choice x y with h | h <;> rw [h]
  · exact hx
  · exact hy

theorem ScoreFin.lt_top {x : Score} (hx : ScoreFin x) : x < ⊤ := by
  obtain ⟨n, rfl⟩ := hx
  exact WithBot.coe_lt_coe.mpr (WithTop.coe_lt_top n)

theorem ScoreFin.bot_lt {x : Score} (hx : ScoreFin x) : ⊥ < x := by
  obtain ⟨n, rfl⟩ := hx
  exact WithBot.bot_lt_coe _

theorem foldl_max_fin (w : Mv → Score) :
    ∀ (l : List Mv) (acc : Score), ScoreFin acc → (∀ m ∈ l, ScoreFin (w m)) →
      ScoreFin (l.foldl (fun a m => max a (w m)) acc) := by
  intro l
  induction l with
  | nil => exact fun acc hacc _ => hacc
  | cons m rest ih =>
      intro acc hacc hall
      exact ih _ (hacc.max (hall m (by simp))) (fun m' hm' => hall m' (by simp [hm']))

theorem foldl_min_fin (w : Mv → Score) :
    ∀ (l : List Mv) (acc : Score), ScoreFin acc → (∀ m ∈ l, ScoreFin (w m)) →
      ScoreFin (l.foldl (fun a m => min a (w m)) acc) := by
  intro l
  induction l with
  | nil => exact fun acc hacc _ => hacc
  | cons m rest ih =>
      intro acc hacc hall
      exact ih _ (hacc.min (hall m (by simp))) (fun m' hm' => hall m' (by simp [hm']))

/-- When the rules engine flags move-less positions as game over,
every plain minimax value in the tree is finite. -/
theorem mmPure_fin (C : SearchCtx σ) (mo : Bool) :
    ∀ (fuel : Nat) (s : σ),
      (∀ s' ∈ treeNodes C mo fuel s, orderedMoves C mo s' = [] → C.R.over s' = true) →
      ∀ maximizing, ScoreFin (mmPure C mo fuel s maximizing) := by
  intro fuel
  induction fuel with
  | zero => exact fun s _ maximizing => ⟨C.R.eval s, rfl⟩
  | succ fuel ih =>
      intro s hterm maximizing
      rw [mmPure]
      by_cases hov : C.R.over s = true
      · rw [if_pos hov]
        exact ⟨C.R.eval s, rfl⟩
      · rw [if_neg hov]
        have hne : orderedMoves C mo s ≠ [] := by
          intro hnil
          exact hov (hterm s (self_mem_treeNodes C mo _ s) hnil)
        have hchild : ∀ m ∈ orderedMoves C mo s, ∀ maxim,
            ScoreFin (mmPure C mo fuel (C.R.apply s m) maxim) := by
          intro m hm maxim
          exact ih (C.R.apply s m)
            (fun s' hs' => hterm s' (mem_treeNodes_child C mo fuel s hov m hm s' hs')) maxim
        obtain ⟨m0, rest, hms⟩ := List.exists_cons_of_ne_nil hne
        by_cases hmx : maximizing = true
        · rw [if_pos hmx, hms]
          rw [List.foldl_cons]
          have h0 : ScoreFin (max ⊥ (mmPure C mo fuel (C.R.apply s m0) false)) := by
            rw [max_eq_right bot_le]
            exact hchild m0 (by rw [hms]; simp) false
          exact foldl_max_fin _ rest _ h0
            (fun m' hm' => hchild m' (by rw [hms]; simp [hm']) false)
        · rw [if_neg hmx, hms]
          rw [List.foldl_cons]
          have h0 : ScoreFin (min Score.pinf (mmPure C mo fuel (C.R.apply s m0) true)) := by
            rw [pinf_eq_top, min_eq_right le_top]
            exact hchild m0 (by rw [hms]; simp) true
          exact foldl_min_fin _ rest _ h0
            (fun m' hm' => hchild m' (by rw [hms]; simp [hm']) true)

/-! ### The Knuth–Moore fail-soft bounds -/

/-- The fail-soft alpha-beta relation between a search result `r` and
the true minimax value `v` of the same node, for a window `(a, b)`:
failing low gives an upper bound, failing high a lower bound, and a
result inside the window is exact. -/
def KM3 (r v a b : Score) : Prop :=
  (r ≤ a → v ≤ r) ∧ (b ≤ r → r ≤ v) ∧ (a < r → r < b → r = v)

theorem le_foldl_max (w : Mv → Score) :
    ∀ (l : List Mv) (a : Score), a ≤ l.foldl (fun x m => max x (w m)) a := by
  intro l
  induction l with
  | nil => exact fun a => le_refl a
  | cons m rest ih =>
      intro a
      exact le_trans (le_max_left a (w m)) (ih (max a (w m)))

theorem foldl_min_le (w : Mv → Score) :
    ∀ (l : List Mv) (a : Score), l.foldl (fun x m => min x (w m)) a ≤ a := by
  intro l
  induction l with
  | nil => exact fun a => le_refl a
  | cons m rest ih =>
      intro a
      exact le_trans (ih (min a (w m))) (min_le_left a (w m))

theorem abLoopMax_km (recv : Mv → Score → Score → Score) (w : Mv → Score)
    (alpha0 beta : Score) (hab : alpha0 < beta) :
    ∀ (ms : List Mv), (∀ m ∈ ms, ∀ a b, a < b → KM3 (recv m a b) (w m) a b) →
    ∀ (acc vPre : Score) (rc : Bool) (bm : Mv),
      max alpha0 acc < beta → KM3 acc vPre alpha0 beta →
      KM3 (abLoopMax true recv rc ms acc (max alpha0 acc) beta bm).1
        (ms.foldl (fun a m => max a (w m)) vPre) alpha0 beta := by
  intro ms
  induction ms with
  | nil => exact fun _ acc vPre rc bm _ hacc => hacc
  | cons m rest ih =>
      intro hrec acc vPre rc bm hwin hacc
      obtain ⟨hacc1, hacc2, hacc3⟩ := hacc
      set val := recv m (max alpha0 acc) beta with hval
      have hKMv : KM3 val (w m) (max alpha0 acc) beta := hrec m (by simp) _ _ hwin
      obtain ⟨hv1, hv2, hv3⟩ := hKMv
      -- the step invariant: the new accumulator stands in the KM relation
      -- to the new true prefix maximum
      have H1 : KM3 (max acc val) (max vPre (w m)) alpha0 beta := by
        refine ⟨?_, ?_, ?_⟩
        · intro hle
          have hacc0 : acc ≤ alpha0 := le_trans (le_max_left acc val) hle
          have hval0 : val ≤ alpha0 := le_trans (le_max_right acc val) hle
          exact max_le_max (hacc1 hacc0)
            (hv1 (le_trans hval0 (le_max_left alpha0 acc)))
        · intro hge
          rcases le_or_lt beta val with hbv | hvb
          · have hw : val ≤ w m := hv2 hbv
            rcases le_or_lt acc alpha0 with ha0 | h0a
            · have : acc < val := lt_of_le_of_lt ha0 (lt_of_lt_of_le hab hbv)
              rw [max_eq_right this.le]
              exact le_trans hw (le_max_right vPre (w m))
            · rcases lt_or_le acc beta with hab2 | hba2
              · have heq : acc = vPre := hacc3 h0a hab2
                exact max_le_max heq.le hw
              · exact max_le_max (hacc2 hba2) hw
          · have hba : beta ≤ acc := by
              by_contra hna
              push_neg at hna
              exact absurd hge (not_le.mpr (max_lt hna hvb))
            have hvpre : acc ≤ vPre := hacc2 hba
            have hva : val ≤ acc := le_trans hvb.le hba
            have hwv : w m ≤ val := hv1 (le_trans hva (le_max_right alpha0 acc))
            rw [max_eq_left hva]
            exact le_trans hvpre (le_max_left vPre (w m))
        · intro hlo hhi
          rcases le_or_lt val acc with hva | hav
          · rw [max_eq_left hva] at hlo hhi ⊢
            have heq : acc = vPre := hacc3 hlo hhi
            have hwa : w m ≤ acc := by
              have := hv1 (le_trans hva (le_max_right alpha0 acc))
              exact le_trans this hva
            rw [← heq, max_eq_left hwa]
          · rw [max_eq_right hav.le] at hlo hhi ⊢
            have hexact : val = w m := hv3 (max_lt hlo hav) hhi
            have hvpre : vPre ≤ w m := by
              rcases le_or_lt acc alpha0 with ha0 | h0a
              · exact le_trans (hacc1 ha0) (le_trans ha0 (le_of_lt (hexact ▸ hlo)))
              · have : acc < beta := lt_trans hav hhi
                have heq : acc = vPre := hacc3 h0a this
                exact le_of_lt (heq ▸ hexact ▸ hav)
            rw [hexact, max_eq_right hvpre]
      rw [abLoopMax]
      simp only [← hval, ite_max, if_pos rfl]
      have halpha' : max (max alpha0 acc) val = max alpha0 (max acc val) := by
        rw [max_assoc]
      rw [halpha']
      by_cases hbr : beta ≤ max alpha0 (max acc val)
      · rw [if_pos hbr]
        have hba : beta ≤ max acc val := by
          rcases max_cases alpha0 (max acc val) with ⟨he, _⟩ | ⟨he, _⟩
          · rw [he] at hbr
            exact absurd hbr (not_le.mpr hab)
          · rwa [he] at hbr
        refine ⟨?_, ?_, ?_⟩
        · intro hle
          exact absurd (lt_of_lt_of_le hab hba) (not_lt.mpr hle)
        · intro _
          exact le_trans (H1.2.1 hba) (le_foldl_max w rest (max vPre (w m)))
        · intro _ hhi
          exact absurd hba (not_le.mpr hhi)
      · rw [if_neg hbr]
        exact ih (fun m' hm' => hrec m' (by simp [hm'])) (max acc val)
          (max vPre (w m)) rc _ (lt_of_not_le hbr) H1

theorem abLoopMin_km (recv : Mv → Score → Score → Score) (w : Mv → Score)
    (alpha beta0 : Score) (hab : alpha < beta0) :
    ∀ (ms : List Mv), (∀ m ∈ ms, ∀ a b, a < b → KM3 (recv m a b) (w m) a b) →
    ∀ (acc vPre : Score) (rc : Bool) (bm : Mv),
      alpha < min beta0 acc → KM3 acc vPre alpha beta0 →
      KM3 (abLoopMin true recv rc ms acc alpha (min beta0 acc) bm).1
        (ms.foldl (fun a m => min a (w m)) vPre) alpha beta0 := by
  intro ms
  induction ms with
  | nil => exact fun _ acc vPre rc bm _ hacc => hacc
  | cons m rest ih =>
      intro hrec acc vPre rc bm hwin hacc
      obtain ⟨hacc1, hacc2, hacc3⟩ := hacc
      set val := recv m alpha (min beta0 acc) with hval
      have hKMv : KM3 val (w m) alpha (min beta0 acc) := hrec m (by simp) _ _ hwin
      obtain ⟨hv1, hv2, hv3⟩ := hKMv
      have H1 : KM3 (min acc val) (min vPre (w m)) alpha beta0 := by
        refine ⟨?_, ?_, ?_⟩
        · intro hle
          rcases le_or_lt val alpha with hva | hav
          · have hwv : w m ≤ val := hv1 hva
            rcases le_or_lt acc alpha with ha0 | h0a
            · have hvp : vPre ≤ acc := hacc1 ha0
              exact le_min (le_trans (min_le_left vPre (w m)) hvp)
                (le_trans (min_le_right vPre (w m)) hwv)
            · rcases lt_or_le acc beta0 with hab2 | hba2
              · have heq : acc = vPre := hacc3 h0a hab2
                exact min_le_min heq.ge hwv
              · have : val < acc := lt_of_le_of_lt hva (lt_of_lt_of_le hab hba2)
                rw [min_eq_right this.le]
                exact le_trans (min_le_right vPre (w m)) hwv
          · have haa : acc ≤ alpha := by
              by_contra hna
              push_neg at hna
              exact absurd hle (not_le.mpr (lt_min hna hav))
            have hvp : vPre ≤ acc := hacc1 haa
            have hbacc : min beta0 acc = acc :=
              min_eq_right (le_trans haa hab.le)
            have hvw : val ≤ w m := hv2 (by rw [hbacc]; exact le_trans haa hav.le)
            have hav2 : acc ≤ val := le_trans haa hav.le
            rw [min_eq_left hav2]
            exact le_trans (min_le_left vPre (w m)) hvp
        · intro hge
          have hba : beta0 ≤ acc := le_trans hge (min_le_left acc val)
          have hbv : beta0 ≤ val := le_trans hge (min_le_right acc val)
          have hvw : val ≤ w m := hv2 (le_trans (min_le_left beta0 acc) hbv)
          exact min_le_min (hacc2 hba) hvw
        · intro hlo hhi
          rcases le_or_lt acc val with hav | hva
          · rw [min_eq_left hav] at hlo hhi ⊢
            have heq : acc = vPre := hacc3 hlo hhi
            have hbacc : min beta0 acc = acc := min_eq_right hhi.le
            have hvw : val ≤ w m := hv2 (by rw [hbacc]; exact hav)
            have haw : acc ≤ w m := le_trans hav hvw
            rw [← heq, min_eq_left haw]
          · rw [min_eq_right hva.le] at hlo hhi ⊢
            have hvb' : val < min beta0 acc := lt_min hhi hva
            have hexact : val = w m := hv3 hlo hvb'
            have hvpre : w m ≤ vPre := by
              rcases le_or_lt beta0 acc with hba | hab2
              · exact le_trans (hexact ▸ hva.le)
                  (by exact le_trans (hacc2 hba) (le_refl vPre))
              · have h0a : alpha < acc := lt_trans hlo hva
                have heq : acc = vPre := hacc3 h0a hab2
                exact heq ▸ (hexact ▸ hva.le)
            rw [hexact, min_eq_right hvpre]
      rw [abLoopMin]
      simp only [← hval, ite_min, if_pos rfl]
      have hbeta' : min (min beta0 acc) val = min beta0 (min acc val) := by
        rw [min_assoc]
      rw [hbeta']
      by_cases hbr : min beta0 (min acc val) ≤ alpha
      · rw [if_pos hbr]
        have hba : min acc val ≤ alpha := by
          rcases min_cases beta0 (min acc val) with ⟨he, _⟩ | ⟨he, _⟩
          · rw [he] at hbr
            exact absurd hbr (not_le.mpr hab)
          · rwa [he] at hbr
        refine ⟨?_, ?_, ?_⟩
        · intro _
          exact le_trans (foldl_min_le w rest (min vPre (w m))) (H1.1 hba)
        · intro hge
          exact absurd (lt_of_le_of_lt hba hab) (not_lt.mpr hge)
        · intro hlo _
          exact absurd hba (not_le.mpr hlo)
      · rw [if_neg hbr]
        exact ih (fun m' hm' => hrec m' (by simp [hm'])) (min acc val)
          (min vPre (w m)) rc _ (lt_of_not_le hbr) H1

/-- The Knuth–Moore fail-soft property of the engine's pruning search
relative to plain minimax. -/
theorem abP_km (C : SearchCtx σ) (mo : Bool) :
    ∀ (fuel : Nat) (s : σ) (maximizing : Bool) (alpha beta : Score), alpha < beta →
      KM3 (abP C mo true fuel s maximizing alpha beta)
        (mmPure C mo fuel s maximizing) alpha beta := by
  intro fuel
  induction fuel with
  | zero =>
      intro s maximizing alpha beta _
      exact ⟨fun _ => le_refl _, fun _ => le_refl _, fun _ _ => rfl⟩
  | succ fuel ih =>
      intro s maximizing alpha beta hab
      rw [abP, mmPure]
      by_cases hov : C.R.over s = true
      · rw [if_pos hov, if_pos hov]
        exact ⟨fun _ => le_refl _, fun _ => le_refl _, fun _ _ => rfl⟩
      · rw [if_neg hov, if_neg hov]
        have hKMbot : KM3 (⊥ : Score) (⊥ : Score) alpha beta :=
          ⟨fun _ => le_refl _, fun _ => le_refl _,
           fun h _ => absurd h (not_lt_bot)⟩
        have hKMtop : KM3 Score.pinf Score.pinf alpha beta :=
          ⟨fun _ => le_refl _, fun _ => le_refl _, fun _ _ => rfl⟩
        by_cases hmx : maximizing = true
        · rw [if_pos hmx, if_pos hmx]
          have hstart : max alpha (⊥ : Score) = alpha := max_eq_left bot_le
          have := abLoopMax_km
            (fun m a b => abP C mo true fuel (C.R.apply s m) false a b)
            (fun m => mmPure C mo fuel (C.R.apply s m) false) alpha beta hab
            (orderedMoves C mo s)
            (fun m _ a b hab' => ih (C.R.apply s m) false a b hab')
            ⊥ ⊥ false nullMove (by rw [hstart]; exact hab) hKMbot
          rwa [hstart] at this
        · rw [if_neg hmx, if_neg hmx]
          have hstart : min beta Score.pinf = beta := by
            rw [pinf_eq_top]
            exact min_eq_left le_top
          have hKMtop' : KM3 Score.pinf Score.pinf alpha beta := hKMtop
          have := abLoopMin_km
            (fun m a b => abP C mo true fuel (C.R.apply s m) true a b)
            (fun m => mmPure C mo fuel (C.R.apply s m) true) alpha beta hab
            (orderedMoves C mo s)
            (fun m _ a b hab' => ih (C.R.apply s m) true a b hab')
            Score.pinf Score.pinf false nullMove (by rw [hstart]; exact hab) hKMtop'
          rwa [hstart] at this

/-! ### Without pruning, the search computes plain minimax -/

theorem abLoopMax_false (recv : Mv → Score → Score → Score) (w : Mv → Score) :
    ∀ (ms : List Mv), (∀ m ∈ ms, ∀ a b, recv m a b = w m) →
    ∀ (acc alpha beta : Score) (rc : Bool) (bm : Mv),
      (abLoopMax false recv rc ms acc alpha beta bm).1
        = ms.foldl (fun a m => max a (w m)) acc := by
  intro ms
  induction ms with
  | nil => intro _ acc alpha beta rc bm; rfl
  | cons m rest ih =>
      intro h acc alpha beta rc bm
      rw [abLoopMax]
      simp only [if_neg (Bool.false_ne_true), ite_max, h m (by simp)]
      rw [List.foldl_cons]
      exact ih (fun m' hm' => h m' (by simp [hm'])) _ _ _ _ _

theorem abLoopMin_false (recv : Mv → Score → Score → Score) (w : Mv → Score) :
    ∀ (ms : List Mv), (∀ m ∈ ms, ∀ a b, recv m a b = w m) →
    ∀ (acc alpha beta : Score) (rc : Bool) (bm : Mv),
      (abLoopMin false recv rc ms acc alpha beta bm).1
        = ms.foldl (fun a m => min a (w m)) acc := by
  intro ms
  induction ms with
  | nil => intro _ acc alpha beta rc bm; rfl
  | cons m rest ih =>
      intro h acc alpha beta rc bm
      rw [abLoopMin]
      simp only [if_neg (Bool.false_ne_true), ite_min, h m (by simp)]
      rw [List.foldl_cons]
      exact ih (fun m' hm' => h m' (by simp [hm'])) _ _ _ _ _

theorem abP_false_eq_mmPure (C : SearchCtx σ) (mo : Bool) :
    ∀ (fuel : Nat) (s : σ) (maximizing : Bool) (alpha beta : Score),
      abP C mo false fuel s maximizing alpha beta = mmPure C mo fuel s maximizing := by
  intro fuel
  induction fuel with
  | zero => intro s maximizing alpha beta; rfl
  | succ fuel ih =>
      intro s maximizing alpha beta
      rw [abP, mmPure]
      by_cases hov : C.R.over s = true
      · rw [if_pos hov, if_pos hov]
      · rw [if_neg hov, if_neg hov]
        by_cases hmx : maximizing = true
        · rw [if_pos hmx, if_pos hmx]
          exact abLoopMax_false _ _ _
            (fun m _ a b => ih (C.R.apply s m) false a b) _ _ _ _ _
        · rw [if_neg hmx, if_neg hmx]
          exact abLoopMin_false _ _ _
            (fun m _ a b => ih (C.R.apply s m) true a b) _ _ _ _ _

/-! ### At the root, pruning changes neither the value nor the recorded
best move, provided the child values are exact minimax values -/

theorem rootLoopMax_compare (recvP : Mv → Score → Score → Score) (w : Mv → Score) :
    ∀ (ms : List Mv),
      (∀ m ∈ ms, ∀ a b, a < b → KM3 (recvP m a b) (w m) a b) →
      (∀ m ∈ ms, ScoreFin (w m)) →
      ∀ (acc : Score) (rc : Bool) (bm : Mv) (alphaN : Score), acc < ⊤ →
        abLoopMax true recvP rc ms acc acc ⊤ bm
          = abLoopMax false (fun m _ _ => w m) rc ms acc alphaN ⊤ bm := by
  intro ms
  induction ms with
  | nil => intro _ _ acc rc bm alphaN _; rfl
  | cons m rest ih =>
      intro hKM hfin acc rc bm alphaN hlt
      have hv := hKM m (by simp) acc ⊤ hlt
      have hwfin := hfin m (by simp)
      have hvP : ¬ (acc < recvP m acc ⊤) ∨ recvP m acc ⊤ = w m := by
        rcases lt_or_le acc (recvP m acc ⊤) with h | h
        · rcases lt_or_le (recvP m acc ⊤) ⊤ with h2 | h2
          · exact Or.inr (hv.2.2 h h2)
          · exfalso
            exact absurd (le_trans h2 (hv.2.1 h2)) (not_le.mpr hwfin.lt_top)
        · exact Or.inl (not_lt.mpr h)
      by_cases hcmp : acc < w m
      · have hvPeq : recvP m acc ⊤ = w m := by
          rcases hvP with hno | heq
          · exfalso
            exact absurd (lt_of_lt_of_le hcmp (hv.1 (le_of_not_lt hno)))
              (not_lt.mpr (le_of_not_lt hno))
          · exact heq
        simp only [abLoopMax, hvPeq, if_pos rfl, if_neg (Bool.false_ne_true)]
        rw [if_pos hcmp]
        rw [max_eq_right hcmp.le,
          if_neg (not_le.mpr hwfin.lt_top)]
        exact ih (fun m' hm' => hKM m' (by simp [hm'])) (fun m' hm' => hfin m' (by simp [hm']))
          (w m) rc _ alphaN hwfin.lt_top
      · have hnv : ¬ acc < recvP m acc ⊤ := by
          rcases hvP with hno | heq
          · exact hno
          · rw [heq]; exact hcmp
        simp only [abLoopMax, if_pos rfl, if_neg (Bool.false_ne_true), if_neg hnv,
          if_neg hcmp, max_eq_left (le_of_not_lt hnv), if_neg (not_le.mpr hlt), ite_self]
        exact ih (fun m' hm' => hKM m' (by simp [hm'])) (fun m' hm' => hfin m' (by simp [hm']))
          acc rc bm alphaN hlt

theorem rootLoopMin_compare (recvP : Mv → Score → Score → Score) (w : Mv → Score) :
    ∀ (ms : List Mv),
      (∀ m ∈ ms, ∀ a b, a < b → KM3 (recvP m a b) (w m) a b) →
      (∀ m ∈ ms, ScoreFin (w m)) →
      ∀ (acc : Score) (rc : Bool) (bm : Mv) (betaN : Score), ⊥ < acc →
        abLoopMin true recvP rc ms acc ⊥ acc bm
          = abLoopMin false (fun m _ _ => w m) rc ms acc ⊥ betaN bm := by
  intro ms
  induction ms with
  | nil => intro _ _ acc rc bm betaN _; rfl
  | cons m rest ih =>
      intro hKM hfin acc rc bm betaN hlt
      have hv := hKM m (by simp) ⊥ acc hlt
      have hwfin := hfin m (by simp)
      have hvP : ¬ (recvP m ⊥ acc < acc) ∨ recvP m ⊥ acc = w m := by
        rcases lt_or_le (recvP m ⊥ acc) acc with h | h
        · rcases lt_or_le (⊥ : Score) (recvP m ⊥ acc) with h2 | h2
          · exact Or.inr (hv.2.2 h2 h)
          · exfalso
            exact absurd (lt_of_lt_of_le hwfin.bot_lt (le_trans (hv.1 h2) h2))
              (lt_irrefl ⊥)
        · exact Or.inl (not_lt.mpr h)
      by_cases hcmp : w m < acc
      · have hvPeq : recvP m ⊥ acc = w m := by
          rcases hvP with hno | heq
          · exfalso
            have hge : acc ≤ recvP m ⊥ acc := le_of_not_lt hno
            exact absurd (lt_of_le_of_lt (le_trans hge (hv.2.1 hge)) hcmp)
              (lt_irrefl acc)
          · exact heq
        simp only [abLoopMin, hvPeq, if_pos rfl, if_neg (Bool.false_ne_true)]
        rw [if_pos hcmp]
        rw [min_eq_right hcmp.le,
          if_neg (not_le.mpr hwfin.bot_lt)]
        exact ih (fun m' hm' => hKM m' (by simp [hm'])) (fun m' hm' => hfin m' (by simp [hm']))
          (w m) rc _ betaN hwfin.bot_lt
      · have hnv : ¬ recvP m ⊥ acc < acc := by
          rcases hvP with hno | heq
          · exact hno
          · rw [heq]; exact hcmp
        simp only [abLoopMin, if_pos rfl, if_neg (Bool.false_ne_true), if_neg hnv,
          if_neg hcmp, min_eq_left (le_of_not_lt hnv), if_neg (not_le.mpr hlt), ite_self]
        exact ih (fun m' hm' => hKM m' (by simp [hm'])) (fun m' hm' => hfin m' (by simp [hm']))
          acc rc bm betaN hlt

/-! ### The search agrees with its pure companion when no fingerprint
repeats in the search tree (no transpositions, no collisions) -/

theorem dFind_dStore {α β : Type} [DecidableEq α] (l : List (α × β)) (k k' : α) (v : β) :
    dFind (dStore l k v) k' = if k' = k then some v else dFind l k' := by
  induction l with
  | nil =>
      by_cases hk : k' = k
      · subst hk
        simp [dStore, dFind]
      · simp [dStore, dFind, hk, if_neg (fun h : k = k' => hk h.symm)]
  | cons p rest ih =>
      obtain ⟨a, w⟩ := p
      by_cases hak : a = k
      · subst hak
        by_cases hk : k' = a
        · subst hk
          simp [dStore, dFind]
        · simp [dStore, dFind, hk, if_neg (fun h : a = k' => hk h.symm)]
      · by_cases hk : a = k'
        · subst hk
          simp [dStore, hak, dFind]
        · simp [dStore, hak, dFind, hk, ih]

theorem ttProbe_miss (C : SearchCtx σ)
    (rec : EngineState σ → BoardState σ → Score → Score →
      Score × EngineState σ × BoardState σ × List TraceEv)
    (es : EngineState σ) (b1 : BoardState σ) (alpha beta : Score)
    (hmiss : dFind es.stored_values (C.R.hash b1.cur) = none) :
    ttProbe C rec es b1 alpha beta
      = ((rec es b1 alpha beta).1,
         storeVal (rec es b1 alpha beta).2.1 (C.R.hash b1.cur) (rec es b1 alpha beta).1,
         (rec es b1 alpha beta).2.2.1, (rec es b1 alpha beta).2.2.2) := by
  unfold ttProbe
  rw [hmiss]

/-- The full correspondence between `minimax` and its pure companions at
a given depth: same value as `abP`, configuration fields untouched, the
best move tracked exactly as `abPBest` tracks it (for calls at or below
the engine's configured depth), and every new table key the hash of a
node of the subtree. -/
def MMSpec (C : SearchCtx σ) [DecidableEq σ] (fuel : Nat) : Prop :=
  ∀ (es : EngineState σ) (b : BoardState σ) (maximizing : Bool) (alpha beta : Score),
    ((treeNodes C es.move_ordering fuel b.cur).map C.R.hash).Nodup →
    (∀ h ∈ (treeNodes C es.move_ordering fuel b.cur).map C.R.hash,
        dFind es.stored_values h = none) →
    (minimax C fuel es b maximizing alpha beta).1
        = abP C es.move_ordering es.alpha_beta_pruning fuel b.cur maximizing alpha beta
    ∧ (minimax C fuel es b maximizing alpha beta).2.1.color = es.color
    ∧ (minimax C fuel es b maximizing alpha beta).2.1.depthv = es.depthv
    ∧ (minimax C fuel es b maximizing alpha beta).2.1.alpha_beta_pruning
        = es.alpha_beta_pruning
    ∧ (minimax C fuel es b maximizing alpha beta).2.1.move_ordering = es.move_ordering
    ∧ ((fuel : Int) ≤ es.depthv →
        (minimax C fuel es b maximizing alpha beta).2.1.best_move
          = if (fuel : Int) = es.depthv then
              abPBest C es.move_ordering es.alpha_beta_pruning es.color.truthy fuel b.cur
                maximizing alpha beta es.best_move
            else es.best_move)
    ∧ (∀ h, dFind (minimax C fuel es b maximizing alpha beta).2.1.stored_values h ≠ none →
        dFind es.stored_values h ≠ none
        ∨ h ∈ (treeNodes C es.move_ordering fuel b.cur).map C.R.hash)

theorem mmLoopMax_spec (C : SearchCtx σ) [DecidableEq σ] (fuel0 : Nat) (cdepth : Int)
    (hrec : MMSpec C fuel0) :
    ∀ (ms : List Mv) (es : EngineState σ) (b : BoardState σ) (acc alpha beta : Score),
      ((ms.flatMap (fun m => treeNodes C es.move_ordering fuel0 (C.R.apply b.cur m))).map
          C.R.hash).Nodup →
      (∀ h ∈ (ms.flatMap (fun m => treeNodes C es.move_ordering fuel0
          (C.R.apply b.cur m))).map C.R.hash, dFind es.stored_values h = none) →
      (mmLoopMax C cdepth (fun es' b' a' b'' => minimax C fuel0 es' b' false a' b'')
          ms es b acc alpha beta).1
        = (abLoopMax es.alpha_beta_pruning
            (fun m a bb => abP C es.move_ordering es.alpha_beta_pruning fuel0
              (C.R.apply b.cur m) false a bb)
            (decide (es.color.truthy = true ∧ cdepth = es.depthv))
            ms acc alpha beta es.best_move).1
      ∧ (mmLoopMax C cdepth (fun es' b' a' b'' => minimax C fuel0 es' b' false a' b'')
          ms es b acc alpha beta).2.1.color = es.color
      ∧ (mmLoopMax C cdepth (fun es' b' a' b'' => minimax C fuel0 es' b' false a' b'')
          ms es b acc alpha beta).2.1.depthv = es.depthv
      ∧ (mmLoopMax C cdepth (fun es' b' a' b'' => minimax C fuel0 es' b' false a' b'')
          ms es b acc alpha beta).2.1.alpha_beta_pruning = es.alpha_beta_pruning
      ∧ (mmLoopMax C cdepth (fun es' b' a' b'' => minimax C fuel0 es' b' false a' b'')
          ms es b acc alpha beta).2.1.move_ordering = es.move_ordering
      ∧ ((fuel0 : Int) < es.depthv →
          (mmLoopMax C cdepth (fun es' b' a' b'' => minimax C fuel0 es' b' false a' b'')
            ms es b acc alpha beta).2.1.best_move
            = (abLoopMax es.alpha_beta_pruning
                (fun m a bb => abP C es.move_ordering es.alpha_beta_pruning fuel0
                  (C.R.apply b.cur m) false a bb)
                (decide (es.color.truthy = true ∧ cdepth = es.depthv))
                ms acc alpha beta es.best_move).2)
      ∧ (∀ h, dFind (mmLoopMax C cdepth
            (fun es' b' a' b'' => minimax C fuel0 es' b' false a' b'')
            ms es b acc alpha beta).2.1.stored_values h ≠ none →
          dFind es.stored_values h ≠ none
          ∨ h ∈ (ms.flatMap (fun m => treeNodes C es.move_ordering fuel0
              (C.R.apply b.cur m))).map C.R.hash) := by
  intro ms
  induction ms with
  | nil =>
      intro es b acc alpha beta hnd hdj
      exact ⟨rfl, rfl, rfl, rfl, rfl, fun _ => rfl, fun h hne => Or.inl hne⟩
  | cons move rest ih =>
      intro es b acc alpha beta hnd hdj
      have hforest : ((move :: rest).flatMap
            (fun m => treeNodes C es.move_ordering fuel0 (C.R.apply b.cur m))).map C.R.hash
          = (treeNodes C es.move_ordering fuel0 (C.R.apply b.cur move)).map C.R.hash
            ++ (rest.flatMap
              (fun m => treeNodes C es.move_ordering fuel0 (C.R.apply b.cur m))).map
              C.R.hash := by
        rw [List.flatMap_cons, List.map_append]
      rw [hforest] at hnd
      obtain ⟨hndC, hndR, hdisj⟩ := List.nodup_append.mp hnd
      have hdjC : ∀ h ∈ (treeNodes C es.move_ordering fuel0
          (C.R.apply b.cur move)).map C.R.hash, dFind es.stored_values h = none :=
        fun h hh => hdj h (by rw [hforest]; exact List.mem_append_left _ hh)
      have hdjR : ∀ h ∈ (rest.flatMap (fun m => treeNodes C es.move_ordering fuel0
          (C.R.apply b.cur m))).map C.R.hash, dFind es.stored_values h = none :=
        fun h hh => hdj h (by rw [hforest]; exact List.mem_append_right _ hh)
      have hchildhash : C.R.hash (C.R.apply b.cur move)
          ∈ (treeNodes C es.move_ordering fuel0 (C.R.apply b.cur move)).map C.R.hash :=
        List.mem_map_of_mem _ (self_mem_treeNodes C _ fuel0 _)
      have hmiss : dFind es.stored_values (C.R.hash (b.push C.R move).cur) = none :=
        hdjC _ hchildhash
      have hR := hrec es (b.push C.R move) false alpha beta hndC hdjC
      obtain ⟨hv, hc, hd, hp, hm, hb, ht⟩ := hR
      have hboard : (minimax C fuel0 es (b.push C.R move) false alpha beta).2.2.1
          = b.push C.R move :=
        (minimax_restores_aux C fuel0 es _ false alpha beta).1
      have hprobe := ttProbe_miss C
        (fun es' b' a' b'' => minimax C fuel0 es' b' false a' b'')
        es (b.push C.R move) alpha beta hmiss
      have hcur : (BoardState.push C.R b move).cur = C.R.apply b.cur move := rfl
      rw [hcur] at hv hb ht hmiss
      simp only [mmLoopMax, hprobe, hboard, push_pop, hcur]
      set r := minimax C fuel0 es (BoardState.push C.R b move) false alpha beta with hrdef
      set es1 := storeVal r.2.1 (C.R.hash (C.R.apply b.cur move)) r.1 with hes1def
      have hc1 : es1.color = es.color := by rw [hes1def, storeVal_color, hc]
      have hd1 : es1.depthv = es.depthv := by rw [hes1def, storeVal_depthv, hd]
      have hp1 : es1.alpha_beta_pruning = es.alpha_beta_pruning := by
        rw [hes1def, storeVal_pruning, hp]
      have hm1 : es1.move_ordering = es.move_ordering := by
        rw [hes1def, storeVal_ordering, hm]
      have hst1 : es1.stored_values
          = dStore r.2.1.stored_values (C.R.hash (C.R.apply b.cur move)) r.1 := by
        rw [hes1def, storeVal_stored]
      simp only [hc1, hd1]
      set es2 := if acc < r.1 then
          (if es.color.truthy = true ∧ cdepth = es.depthv then recBest es1 move else es1)
        else es1 with hes2def
      have hc2 : es2.color = es.color := by
        rw [hes2def]
        split
        · split
          · rw [recBest_color, hc1]
          · exact hc1
        · exact hc1
      have hd2 : es2.depthv = es.depthv := by
        rw [hes2def]
        split
        · split
          · rw [recBest_depthv, hd1]
          · exact hd1
        · exact hd1
      have hp2 : es2.alpha_beta_pruning = es.alpha_beta_pruning := by
        rw [hes2def]
        split
        · split
          · rw [recBest_pruning, hp1]
          · exact hp1
        · exact hp1
      have hm2 : es2.move_ordering = es.move_ordering := by
        rw [hes2def]
        split
        · split
          · rw [recBest_ordering, hm1]
          · exact hm1
        · exact hm1
      have hst2 : es2.stored_values
          = dStore r.2.1.stored_values (C.R.hash (C.R.apply b.cur move)) r.1 := by
        rw [hes2def]
        split
        · split
          · rw [recBest_stored, hst1]
          · exact hst1
        · exact hst1
      -- every key of es2 is either an old key or a hash of the child tree
      have htab2 : ∀ h, dFind es2.stored_values h ≠ none →
          dFind es.stored_values h ≠ none
          ∨ h ∈ (treeNodes C es.move_ordering fuel0 (C.R.apply b.cur move)).map C.R.hash := by
        intro h hne
        rw [hst2, dFind_dStore] at hne
        by_cases hh : h = C.R.hash (C.R.apply b.cur move)
        · exact Or.inr (hh ▸ hchildhash)
        · rw [if_neg hh] at hne
          exact ht h hne
      -- keys of es2 never collide with the hashes of the remaining forest
      have hdjR2 : ∀ h ∈ (rest.flatMap (fun m => treeNodes C es.move_ordering fuel0
          (C.R.apply b.cur m))).map C.R.hash, dFind es2.stored_values h = none := by
        intro h hh
        rw [hst2, dFind_dStore,
          if_neg (fun he : h = C.R.hash (C.R.apply b.cur move) =>
            hdisj (by rw [he]; exact hchildhash) hh)]
        by_contra hne
        rcases ht h hne with h1 | h2
        · exact h1 (hdjR h hh)
        · exact hdisj h2 hh
      -- pure best-move bookkeeping of one step
      have hbest1 : (fuel0 : Int) < es.depthv → es1.best_move = es.best_move := by
        intro hlt
        rw [hes1def, storeVal_best]
        rw [hb (le_of_lt hlt), if_neg (ne_of_lt hlt)]
      have hbest2 : (fuel0 : Int) < es.depthv → es2.best_move
          = (if acc < r.1 then
              (if decide (es.color.truthy = true ∧ cdepth = es.depthv) = true
                then move else es.best_move)
            else es.best_move) := by
        intro hlt
        rw [hes2def]
        simp only [decide_eq_true_eq]
        split
        · split
          · rw [recBest_best]
          · exact hbest1 hlt
        · exact hbest1 hlt
      -- unfold one step of the pure loop
      rw [show (abLoopMax es.alpha_beta_pruning
          (fun m a bb => abP C es.move_ordering es.alpha_beta_pruning fuel0
            (C.R.apply b.cur m) false a bb)
          (decide (es.color.truthy = true ∧ cdepth = es.depthv))
          (move :: rest) acc alpha beta es.best_move)
        = (let val := abP C es.move_ordering es.alpha_beta_pruning fuel0
              (C.R.apply b.cur move) false alpha beta
           let acc' := if acc < val then val else acc
           let bm' := if acc < val then
              (if decide (es.color.truthy = true ∧ cdepth = es.depthv) = true
                then move else es.best_move) else es.best_move
           if es.alpha_beta_pruning then
             if beta ≤ max alpha val then (acc', bm')
             else abLoopMax es.alpha_beta_pruning
               (fun m a bb => abP C es.move_ordering es.alpha_beta_pruning fuel0
                 (C.R.apply b.cur m) false a bb)
               (decide (es.color.truthy = true ∧ cdepth = es.depthv))
               rest acc' (max alpha val) beta bm'
           else abLoopMax es.alpha_beta_pruning
             (fun m a bb => abP C es.move_ordering es.alpha_beta_pruning fuel0
               (C.R.apply b.cur m) false a bb)
             (decide (es.color.truthy = true ∧ cdepth = es.depthv))
             rest acc' alpha beta bm') from rfl]
      simp only [← hv]
      rw [hp2]
      by_cases hpr : es.alpha_beta_pruning = true
      · rw [if_pos hpr, if_pos hpr]
        by_cases hbr : beta ≤ max alpha r.1
        · rw [if_pos hbr, if_pos hbr]
          refine ⟨rfl, hc2, hd2, hp2, hm2, ?_, ?_⟩
          · intro hlt
            exact hbest2 hlt
          · intro h hne
            rcases htab2 h hne with hold | hchild
            · exact Or.inl hold
            · exact Or.inr (by rw [hforest]; exact List.mem_append_left _ hchild)
        · rw [if_neg hbr, if_neg hbr]
          have hihf := ih es2 b (if acc < r.1 then r.1 else acc) (max alpha r.1) beta
            (by rw [hm2]; exact hndR) (by rw [hm2]; exact hdjR2)
          rw [hc2, hd2, hp2, hm2] at hihf
          obtain ⟨i1, i2, i3, i4, i5, i6, i7⟩ := hihf
          refine ⟨?_, i2, i3, i4, i5, ?_, ?_⟩
          · rw [i1]
            exact abLoopMax_fst _ _ _ _ _ _ _ _ _ _
          · intro hlt
            rw [i6 hlt, hbest2 hlt]
          · intro h hne
            rcases i7 h hne with h1 | h2
            · rcases htab2 h h1 with hold | hchild
              · exact Or.inl hold
              · exact Or.inr (by rw [hforest]; exact List.mem_append_left _ hchild)
            · exact Or.inr (by rw [hforest]; exact List.mem_append_right _ h2)
      · rw [if_neg hpr, if_neg hpr]
        have hihf := ih es2 b (if acc < r.1 then r.1 else acc) alpha beta
          (by rw [hm2]; exact hndR) (by rw [hm2]; exact hdjR2)
        rw [hc2, hd2, hp2, hm2] at hihf
        obtain ⟨i1, i2, i3, i4, i5, i6, i7⟩ := hihf
        refine ⟨?_, i2, i3, i4, i5, ?_, ?_⟩
        · rw [i1]
          exact abLoopMax_fst _ _ _ _ _ _ _ _ _ _
        · intro hlt
          rw [i6 hlt, hbest2 hlt]
        · intro h hne
          rcases i7 h hne with h1 | h2
          · rcases htab2 h h1 with hold | hchild
            · exact Or.inl hold
            · exact Or.inr (by rw [hforest]; exact List.mem_append_left _ hchild)
          · exact Or.inr (by rw [hforest]; exact List.mem_append_right _ h2)

theorem mmLoopMin_spec (C : SearchCtx σ) [DecidableEq σ] (fuel0 : Nat) (cdepth : Int)
    (hrec : MMSpec C fuel0) :
    ∀ (ms : List Mv) (es : EngineState σ) (b : BoardState σ) (acc alpha beta : Score),
      ((ms.flatMap (fun m => treeNodes C es.move_ordering fuel0 (C.R.apply b.cur m))).map
          C.R.hash).Nodup →
      (∀ h ∈ (ms.flatMap (fun m => treeNodes C es.move_ordering fuel0
          (C.R.apply b.cur m))).map C.R.hash, dFind es.stored_values h = none) →
      (mmLoopMin C cdepth (fun es' b' a' b'' => minimax C fuel0 es' b' true a' b'')
          ms es b acc alpha beta).1
        = (abLoopMin es.alpha_beta_pruning
            (fun m a bb => abP C es.move_ordering es.alpha_beta_pruning fuel0
              (C.R.apply b.cur m) true a bb)
            (decide (es.color.truthy = false ∧ cdepth = es.depthv))
            ms acc alpha beta es.best_move).1
      ∧ (mmLoopMin C cdepth (fun es' b' a' b'' => minimax C fuel0 es' b' true a' b'')
          ms es b acc alpha beta).2.1.color = es.color
      ∧ (mmLoopMin C cdepth (fun es' b' a' b'' => minimax C fuel0 es' b' true a' b'')
          ms es b acc alpha beta).2.1.depthv = es.depthv
      ∧ (mmLoopMin C cdepth (fun es' b' a' b'' => minimax C fuel0 es' b' true a' b'')
          ms es b acc alpha beta).2.1.alpha_beta_pruning = es.alpha_beta_pruning
      ∧ (mmLoopMin C cdepth (fun es' b' a' b'' => minimax C fuel0 es' b' true a' b'')
          ms es b acc alpha beta).2.1.move_ordering = es.move_ordering
      ∧ ((fuel0 : Int) < es.depthv →
          (mmLoopMin C cdepth (fun es' b' a' b'' => minimax C fuel0 es' b' true a' b'')
            ms es b acc alpha beta).2.1.best_move
            = (abLoopMin es.alpha_beta_pruning
                (fun m a bb => abP C es.move_ordering es.alpha_beta_pruning fuel0
                  (C.R.apply b.cur m) true a bb)
                (decide (es.color.truthy = false ∧ cdepth = es.depthv))
                ms acc alpha beta es.best_move).2)
      ∧ (∀ h, dFind (mmLoopMin C cdepth
            (fun es' b' a' b'' => minimax C fuel0 es' b' true a' b'')
            ms es b acc alpha beta).2.1.stored_values h ≠ none →
          dFind es.stored_values h ≠ none
          ∨ h ∈ (ms.flatMap (fun m => treeNodes C es.move_ordering fuel0
              (C.R.apply b.cur m))).map C.R.hash) := by
  intro ms
  induction ms with
  | nil =>
      intro es b acc alpha beta hnd hdj
      exact ⟨rfl, rfl, rfl, rfl, rfl, fun _ => rfl, fun h hne => Or.inl hne⟩
  | cons move rest ih =>
      intro es b acc alpha beta hnd hdj
      have hforest : ((move :: rest).flatMap
            (fun m => treeNodes C es.move_ordering fuel0 (C.R.apply b.cur m))).map C.R.hash
          = (treeNodes C es.move_ordering fuel0 (C.R.apply b.cur move)).map C.R.hash
            ++ (rest.flatMap
              (fun m => treeNodes C es.move_ordering fuel0 (C.R.apply b.cur m))).map
              C.R.hash := by
        rw [List.flatMap_cons, List.map_append]
      rw [hforest] at hnd
      obtain ⟨hndC, hndR, hdisj⟩ := List.nodup_append.mp hnd
      have hdjC : ∀ h ∈ (treeNodes C es.move_ordering fuel0
          (C.R.apply b.cur move)).map C.R.hash, dFind es.stored_values h = none :=
        fun h hh => hdj h (by rw [hforest]; exact List.mem_append_left _ hh)
      have hdjR : ∀ h ∈ (rest.flatMap (fun m => treeNodes C es.move_ordering fuel0
          (C.R.apply b.cur m))).map C.R.hash, dFind es.stored_values h = none :=
        fun h hh => hdj h (by rw [hforest]; exact List.mem_append_right _ hh)
      have hchildhash : C.R.hash (C.R.apply b.cur move)
          ∈ (treeNodes C es.move_ordering fuel0 (C.R.apply b.cur move)).map C.R.hash :=
        List.mem_map_of_mem _ (self_mem_treeNodes C _ fuel0 _)
      have hmiss : dFind es.stored_values (C.R.hash (b.push C.R move).cur) = none :=
        hdjC _ hchildhash
      have hR := hrec es (b.push C.R move) true alpha beta hndC hdjC
      obtain ⟨hv, hc, hd, hp, hm, hb, ht⟩ := hR
      have hboard : (minimax C fuel0 es (b.push C.R move) true alpha beta).2.2.1
          = b.push C.R move :=
        (minimax_restores_aux C fuel0 es _ true alpha beta).1
      have hprobe := ttProbe_miss C
        (fun es' b' a' b'' => minimax C fuel0 es' b' true a' b'')
        es (b.push C.R move) alpha beta hmiss
      have hcur : (BoardState.push C.R b move).cur = C.R.apply b.cur move := rfl
      rw [hcur] at hv hb ht hmiss
      simp only [mmLoopMin, hprobe, hboard, push_pop, hcur]
      set r := minimax C fuel0 es (BoardState.push C.R b move) true alpha beta with hrdef
      set es1 := storeVal r.2.1 (C.R.hash (C.R.apply b.cur move)) r.1 with hes1def
      have hc1 : es1.color = es.color := by rw [hes1def, storeVal_color, hc]
      have hd1 : es1.depthv = es.depthv := by rw [hes1def, storeVal_depthv, hd]
      have hp1 : es1.alpha_beta_pruning = es.alpha_beta_pruning := by
        rw [hes1def, storeVal_pruning, hp]
      have hm1 : es1.move_ordering = es.move_ordering := by
        rw [hes1def, storeVal_ordering, hm]
      have hst1 : es1.stored_values
          = dStore r.2.1.stored_values (C.R.hash (C.R.apply b.cur move)) r.1 := by
        rw [hes1def, storeVal_stored]
      simp only [hc1, hd1]
      set es2 := if r.1 < acc then
          (if es.color.truthy = false ∧ cdepth = es.depthv then recBest es1 move else es1)
        else es1 with hes2def
      have hc2 : es2.color = es.color := by
        rw [hes2def]
        split
        · split
          · rw [recBest_color, hc1]
          · exact hc1
        · exact hc1
      have hd2 : es2.depthv = es.depthv := by
        rw [hes2def]
        split
        · split
          · rw [recBest_depthv, hd1]
          · exact hd1
        · exact hd1
      have hp2 : es2.alpha_beta_pruning = es.alpha_beta_pruning := by
        rw [hes2def]
        split
        · split
          · rw [recBest_pruning, hp1]
          · exact hp1
        · exact hp1
      have hm2 : es2.move_ordering = es.move_ordering := by
        rw [hes2def]
        split
        · split
          · rw [recBest_ordering, hm1]
          · exact hm1
        · exact hm1
      have hst2 : es2.stored_values
          = dStore r.2.1.stored_values (C.R.hash (C.R.apply b.cur move)) r.1 := by
        rw [hes2def]
        split
        · split
          · rw [recBest_stored, hst1]
          · exact hst1
        · exact hst1
      -- every key of es2 is either an old key or a hash of the child tree
      have htab2 : ∀ h, dFind es2.stored_values h ≠ none →
          dFind es.stored_values h ≠ none
          ∨ h ∈ (treeNodes C es.move_ordering fuel0 (C.R.apply b.cur move)).map C.R.hash := by
        intro h hne
        rw [hst2, dFind_dStore] at hne
        by_cases hh : h = C.R.hash (C.R.apply b.cur move)
        · exact Or.inr (hh ▸ hchildhash)
        · rw [if_neg hh] at hne
          exact ht h hne
      -- keys of es2 never collide with the hashes of the remaining forest
      have hdjR2 : ∀ h ∈ (rest.flatMap (fun m => treeNodes C es.move_ordering fuel0
          (C.R.apply b.cur m))).map C.R.hash, dFind es2.stored_values h = none := by
        intro h hh
        rw [hst2, dFind_dStore,
          if_neg (fun he : h = C.R.hash (C.R.apply b.cur move) =>
            hdisj (by rw [he]; exact hchildhash) hh)]
        by_contra hne
        rcases ht h hne with h1 | h2
        · exact h1 (hdjR h hh)
        · exact hdisj h2 hh
      -- pure best-move bookkeeping of one step
      have hbest1 : (fuel0 : Int) < es.depthv → es1.best_move = es.best_move := by
        intro hlt
        rw [hes1def, storeVal_best]
        rw [hb (le_of_lt hlt), if_neg (ne_of_lt hlt)]
      have hbest2 : (fuel0 : Int) < es.depthv → es2.best_move
          = (if r.1 < acc then
              (if decide (es.color.truthy = false ∧ cdepth = es.depthv) = true
                then move else es.best_move)
            else es.best_move) := by
        intro hlt
        rw [hes2def]
        simp only [decide_eq_true_eq]
        split
        · split
          · rw [recBest_best]
          · exact hbest1 hlt
        · exact hbest1 hlt
      -- unfold one step of the pure loop
      rw [show (abLoopMin es.alpha_beta_pruning
          (fun m a bb => abP C es.move_ordering es.alpha_beta_pruning fuel0
            (C.R.apply b.cur m) true a bb)
          (decide (es.color.truthy = false ∧ cdepth = es.depthv))
          (move :: rest) acc alpha beta es.best_move)
        = (let val := abP C es.move_ordering es.alpha_beta_pruning fuel0
              (C.R.apply b.cur move) true alpha beta
           let acc' := if val < acc then val else acc
           let bm' := if val < acc then
              (if decide (es.color.truthy = false ∧ cdepth = es.depthv) = true
                then move else es.best_move) else es.best_move
           if es.alpha_beta_pruning then
             if min beta val ≤ alpha then (acc', bm')
             else abLoopMin es.alpha_beta_pruning
               (fun m a bb => abP C es.move_ordering es.alpha_beta_pruning fuel0
                 (C.R.apply b.cur m) true a bb)
               (decide (es.color.truthy = false ∧ cdepth = es.depthv))
               rest acc' alpha (min beta val) bm'
           else abLoopMin es.alpha_beta_pruning
             (fun m a bb => abP C es.move_ordering es.alpha_beta_pruning fuel0
               (C.R.apply b.cur m) true a bb)
             (decide (es.color.truthy = false ∧ cdepth = es.depthv))
             rest acc' alpha beta bm') from rfl]
      simp only [← hv]
      rw [hp2]
      by_cases hpr : es.alpha_beta_pruning = true
      · rw [if_pos hpr, if_pos hpr]
        by_cases hbr : min beta r.1 ≤ alpha
        · rw [if_pos hbr, if_pos hbr]
          refine ⟨rfl, hc2, hd2, hp2, hm2, ?_, ?_⟩
          · intro hlt
            exact hbest2 hlt
          · intro h hne
            rcases htab2 h hne with hold | hchild
            · exact Or.inl hold
            · exact Or.inr (by rw [hforest]; exact List.mem_append_left _ hchild)
        · rw [if_neg hbr, if_neg hbr]
          have hihf := ih es2 b (if r.1 < acc then r.1 else acc) alpha (min beta r.1)
            (by rw [hm2]; exact hndR) (by rw [hm2]; exact hdjR2)
          rw [hc2, hd2, hp2, hm2] at hihf
          obtain ⟨i1, i2, i3, i4, i5, i6, i7⟩ := hihf
          refine ⟨?_, i2, i3, i4, i5, ?_, ?_⟩
          · rw [i1]
            exact abLoopMin_fst _ _ _ _ _ _ _ _ _ _
          · intro hlt
            rw [i6 hlt, hbest2 hlt]
          · intro h hne
            rcases i7 h hne with h1 | h2
            · rcases htab2 h h1 with hold | hchild
              · exact Or.inl hold
              · exact Or.inr (by rw [hforest]; exact List.mem_append_left _ hchild)
            · exact Or.inr (by rw [hforest]; exact List.mem_append_right _ h2)
      · rw [if_neg hpr, if_neg hpr]
        have hihf := ih es2 b (if r.1 < acc then r.1 else acc) alpha beta
          (by rw [hm2]; exact hndR) (by rw [hm2]; exact hdjR2)
        rw [hc2, hd2, hp2, hm2] at hihf
        obtain ⟨i1, i2, i3, i4, i5, i6, i7⟩ := hihf
        refine ⟨?_, i2, i3, i4, i5, ?_, ?_⟩
        · rw [i1]
          exact abLoopMin_fst _ _ _ _ _ _ _ _ _ _
        · intro hlt
          rw [i6 hlt, hbest2 hlt]
        · intro h hne
          rcases i7 h hne with h1 | h2
          · rcases htab2 h h1 with hold | hchild
            · exact Or.inl hold
            · exact Or.inr (by rw [hforest]; exact List.mem_append_left _ hchild)
          · exact Or.inr (by rw [hforest]; exact List.mem_append_right _ h2)
/-- The code's `minimax`, run on a table that misses every node of the
search tree and with pairwise-distinct node fingerprints, computes
exactly the pure alpha-beta value `abP` and records exactly the pure
best move `abPBest`; every configuration field is preserved and every
new table key is the fingerprint of a tree node. -/
theorem minimax_MMSpec (C : SearchCtx σ) [DecidableEq σ] : ∀ fuel, MMSpec C fuel := by
  intro fuel
  induction fuel with
  | zero =>
      intro es b maximizing alpha beta hnd hdj
      refine ⟨rfl, rfl, rfl, rfl, rfl, ?_, ?_⟩
      · intro _
        have h0 : abPBest C es.move_ordering es.alpha_beta_pruning es.color.truthy 0 b.cur
            maximizing alpha beta es.best_move = es.best_move := rfl
        rw [h0, ite_self]
        rfl
      · intro h hne
        exact Or.inl hne
  | succ fuel ih =>
      intro es b maximizing alpha beta hnd hdj
      by_cases hover : C.R.over b.cur = true
      · -- game-over node: both sides are the static evaluation, no move recorded
        have hmm : minimax C (fuel + 1) es b maximizing alpha beta = leafEval C es b := by
          rw [minimax, if_pos hover]
        have habP : abP C es.move_ordering es.alpha_beta_pruning (fuel + 1) b.cur maximizing
            alpha beta = Score.num (C.R.eval b.cur) := by
          rw [abP, if_pos hover]
        have habB : abPBest C es.move_ordering es.alpha_beta_pruning es.color.truthy (fuel + 1)
            b.cur maximizing alpha beta es.best_move = es.best_move := by
          rw [abPBest, if_pos hover]
        rw [hmm, habP]
        refine ⟨rfl, rfl, rfl, rfl, rfl, ?_, ?_⟩
        · intro _
          rw [habB, ite_self]
          rfl
        · intro h hne
          exact Or.inl hne
      · -- live node: relate the code loop to the pure loop
        rw [minimax, if_neg hover]
        have htn : treeNodes C es.move_ordering (fuel + 1) b.cur
            = b.cur :: (orderedMoves C es.move_ordering b.cur).flatMap
                (fun m => treeNodes C es.move_ordering fuel (C.R.apply b.cur m)) := by
          rw [treeNodes, if_neg hover]
        rw [htn, List.map_cons] at hnd hdj
        have hnd' := (List.nodup_cons.mp hnd).2
        have hdj' : ∀ h ∈ ((orderedMoves C es.move_ordering b.cur).flatMap
            (fun m => treeNodes C es.move_ordering fuel (C.R.apply b.cur m))).map C.R.hash,
            dFind es.stored_values h = none :=
          fun h hh => hdj h (List.mem_cons_of_mem _ hh)
        by_cases hmx : maximizing = true
        · subst hmx
          rw [if_pos rfl]
          have habP : abP C es.move_ordering es.alpha_beta_pruning (fuel + 1) b.cur true
              alpha beta
              = (abLoopMax es.alpha_beta_pruning
                  (fun m a bb => abP C es.move_ordering es.alpha_beta_pruning fuel
                    (C.R.apply b.cur m) false a bb)
                  false (orderedMoves C es.move_ordering b.cur) ⊥ alpha beta nullMove).1 := by
            rw [abP, if_neg hover, if_pos rfl]
          obtain ⟨j1, j2, j3, j4, j5, j6, j7⟩ :=
            mmLoopMax_spec C fuel ((fuel + 1 : Nat) : Int) ih
              (orderedMoves C es.move_ordering b.cur) es b ⊥ alpha beta hnd' hdj'
          rw [habP, htn]
          refine ⟨?_, j2, j3, j4, j5, ?_, ?_⟩
          · rw [j1]
            exact abLoopMax_fst _ _ _ _ _ _ _ _ _ _
          · intro hle
            have hlt : (fuel : Int) < es.depthv := by
              have h1 : ((fuel : Int) + 1) ≤ es.depthv := by exact_mod_cast hle
              omega
            rw [j6 hlt]
            by_cases heq : ((fuel + 1 : Nat) : Int) = es.depthv
            · rw [if_pos heq]
              have habB : abPBest C es.move_ordering es.alpha_beta_pruning es.color.truthy
                  (fuel + 1) b.cur true alpha beta es.best_move
                  = (abLoopMax es.alpha_beta_pruning
                      (fun m a bb => abP C es.move_ordering es.alpha_beta_pruning fuel
                        (C.R.apply b.cur m) false a bb)
                      es.color.truthy (orderedMoves C es.move_ordering b.cur) ⊥ alpha beta
                      es.best_move).2 := by
                rw [abPBest, if_neg hover, if_pos rfl]
              rw [habB]
              have hrc : decide (es.color.truthy = true ∧ ((fuel + 1 : Nat) : Int) = es.depthv)
                  = es.color.truthy := by
                cases hc : es.color.truthy <;> simp [heq, hc]
              rw [hrc]
            · rw [if_neg heq]
              have hrc : decide (es.color.truthy = true ∧ ((fuel + 1 : Nat) : Int) = es.depthv)
                  = false := by
                rw [decide_eq_false_iff_not]
                exact fun hx => heq hx.2
              rw [hrc]
              exact abLoopMax_snd_off _ _ _ _ _ _ _
          · intro h hne
            rcases j7 h hne with h1 | h2
            · exact Or.inl h1
            · exact Or.inr (List.mem_cons_of_mem _ h2)
        · have hmx' : maximizing = false := by
            cases maximizing
            · rfl
            · exact absurd rfl hmx
          subst hmx'
          rw [if_neg Bool.false_ne_true]
          have habP : abP C es.move_ordering es.alpha_beta_pruning (fuel + 1) b.cur false
              alpha beta
              = (abLoopMin es.alpha_beta_pruning
                  (fun m a bb => abP C es.move_ordering es.alpha_beta_pruning fuel
                    (C.R.apply b.cur m) true a bb)
                  false (orderedMoves C es.move_ordering b.cur) Score.pinf alpha beta
                  nullMove).1 := by
            rw [abP, if_neg hover, if_neg Bool.false_ne_true]
          obtain ⟨j1, j2, j3, j4, j5, j6, j7⟩ :=
            mmLoopMin_spec C fuel ((fuel + 1 : Nat) : Int) ih
              (orderedMoves C es.move_ordering b.cur) es b Score.pinf alpha beta hnd' hdj'
          rw [habP, htn]
          refine ⟨?_, j2, j3, j4, j5, ?_, ?_⟩
          · rw [j1]
            exact abLoopMin_fst _ _ _ _ _ _ _ _ _ _
          · intro hle
            have hlt : (fuel : Int) < es.depthv := by
              have h1 : ((fuel : Int) + 1) ≤ es.depthv := by exact_mod_cast hle
              omega
            rw [j6 hlt]
            by_cases heq : ((fuel + 1 : Nat) : Int) = es.depthv
            · rw [if_pos heq]
              have habB : abPBest C es.move_ordering es.alpha_beta_pruning es.color.truthy
                  (fuel + 1) b.cur false alpha beta es.best_move
                  = (abLoopMin es.alpha_beta_pruning
                      (fun m a bb => abP C es.move_ordering es.alpha_beta_pruning fuel
                        (C.R.apply b.cur m) true a bb)
                      (!es.color.truthy) (orderedMoves C es.move_ordering b.cur) Score.pinf
                      alpha beta es.best_move).2 := by
                rw [abPBest, if_neg hover, if_neg Bool.false_ne_true]
              rw [habB]
              have hrc : decide (es.color.truthy = false
                    ∧ ((fuel + 1 : Nat) : Int) = es.depthv)
                  = !es.color.truthy := by
                cases hc : es.color.truthy <;> simp [heq, hc]
              rw [hrc]
            · rw [if_neg heq]
              have hrc : decide (es.color.truthy = false
                    ∧ ((fuel + 1 : Nat) : Int) = es.depthv)
                  = false := by
                rw [decide_eq_false_iff_not]
                exact fun hx => heq hx.2
              rw [hrc]
              exact abLoopMin_snd_off _ _ _ _ _ _ _
          · intro h hne
            rcases j7 h hne with h1 | h2
            · exact Or.inl h1
            · exact Or.inr (List.mem_cons_of_mem _ h2)


/-- With a boolean color, `move` hands back the best move recorded by
the depth-limited search started from the engine's stored window. -/
theorem MiniMax.move_best [DecidableEq σ] (C : SearchCtx σ) (es : EngineState σ)
    (b : BoardState σ) (c : Bool) (n : Nat) (a bb : Score)
    (hcol : es.color = PyObj.boolV c) (hn : es.depthv.toNat = n)
    (ha : es.alpha = a) (hb : es.beta = bb) :
    (MiniMax.move C es b).1 = (minimax C n es b c a bb).2.1.best_move := by
  subst hn ha hb
  show (MiniMax.evaluate C es b).1.best_move = _
  rw [MiniMax.evaluate, hcol]

/-- At the root of a full-window search whose move-less positions are
all game over, the pure search records the same best move with pruning
as without. -/
theorem abPBest_root_compare (C : SearchCtx σ) (mo colT : Bool) (f0 : Nat) (s : σ)
    (maximizing : Bool) (bm : Mv)
    (hterm : ∀ s' ∈ treeNodes C mo (f0 + 1) s,
        orderedMoves C mo s' = [] → C.R.over s' = true) :
    abPBest C mo true colT (f0 + 1) s maximizing ⊥ Score.pinf bm
      = abPBest C mo false colT (f0 + 1) s maximizing ⊥ Score.pinf bm := by
  by_cases hov : C.R.over s = true
  · rw [abPBest, abPBest, if_pos hov, if_pos hov]
  · have hKM : ∀ mx : Bool, ∀ m ∈ orderedMoves C mo s, ∀ a b, a < b →
        KM3 (abP C mo true f0 (C.R.apply s m) mx a b)
          (mmPure C mo f0 (C.R.apply s m) mx) a b :=
      fun mx m _ a b hab => abP_km C mo f0 (C.R.apply s m) mx a b hab
    have hfin : ∀ mx : Bool, ∀ m ∈ orderedMoves C mo s,
        ScoreFin (mmPure C mo f0 (C.R.apply s m) mx) :=
      fun mx m hm => mmPure_fin C mo f0 (C.R.apply s m)
        (fun s' hs' => hterm s' (mem_treeNodes_child C mo f0 s hov m hm s' hs')) mx
    by_cases hmx : maximizing = true
    · rw [abPBest, abPBest, if_neg hov, if_neg hov, if_pos hmx, if_pos hmx,
        pinf_eq_top]
      have h1 := rootLoopMax_compare
        (fun m a b => abP C mo true f0 (C.R.apply s m) false a b)
        (fun m => mmPure C mo f0 (C.R.apply s m) false)
        (orderedMoves C mo s)
        (fun m hm a b hab => hKM false m hm a b hab)
        (fun m hm => hfin false m hm)
        ⊥ colT bm ⊥ bot_lt_top
      have h2 := abLoopMax_congr false
        (fun m a b => mmPure C mo f0 (C.R.apply s m) false)
        (fun m a b => abP C mo false f0 (C.R.apply s m) false a b)
        colT (orderedMoves C mo s)
        (fun m _ a b => (abP_false_eq_mmPure C mo f0 (C.R.apply s m) false a b).symm)
        ⊥ ⊥ ⊤ bm
      rw [h1, h2]
    · rw [abPBest, abPBest, if_neg hov, if_neg hov, if_neg hmx, if_neg hmx,
        pinf_eq_top]
      have h1 := rootLoopMin_compare
        (fun m a b => abP C mo true f0 (C.R.apply s m) true a b)
        (fun m => mmPure C mo f0 (C.R.apply s m) true)
        (orderedMoves C mo s)
        (fun m hm a b hab => hKM true m hm a b hab)
        (fun m hm => hfin true m hm)
        ⊤ (!colT) bm ⊤ bot_lt_top
      have h2 := abLoopMin_congr false
        (fun m a b => mmPure C mo f0 (C.R.apply s m) true)
        (fun m a b => abP C mo false f0 (C.R.apply s m) true a b)
        (!colT) (orderedMoves C mo s)
        (fun m _ a b => (abP_false_eq_mmPure C mo f0 (C.R.apply s m) true a b).symm)
        ⊤ ⊥ ⊤ bm
      rw [h1, h2]

/-- C1 (amended): when the transposition table starts empty, the root
window is the default `(-inf, +inf)`, and the fingerprints of the
positions in the search tree are pairwise distinct (no transpositions
and no hash collisions, so every table probe misses), enabling
alpha-beta pruning does not change the move `MiniMax.move` returns:
pruning is then a pure optimization of the best-move computation.  The
move-less-implies-game-over hypothesis says the rules engine flags
finished games, so every searched line has a finite value. -/
theorem alpha_beta_preserves_best_move [DecidableEq σ] (C : SearchCtx σ)
    (es : EngineState σ) (b : BoardState σ) (c : Bool)
    (hcol : es.color = PyObj.boolV c)
    (ha : es.alpha = ⊥) (hb : es.beta = Score.pinf)
    (hst : es.stored_values = [])
    (hd : 1 ≤ es.depthv)
    (hnd : ((treeNodes C es.move_ordering es.depthv.toNat b.cur).map C.R.hash).Nodup)
    (hterm : ∀ s' ∈ treeNodes C es.move_ordering es.depthv.toNat b.cur,
        orderedMoves C es.move_ordering s' = [] → C.R.over s' = true) :
    (MiniMax.move C { es with alpha_beta_pruning := true } b).1
      = (MiniMax.move C { es with alpha_beta_pruning := false } b).1 := by
  have hfd : ((es.depthv.toNat : Nat) : Int) = es.depthv := Int.toNat_of_nonneg (by omega)
  obtain hf : ∃ f0, es.depthv.toNat = f0 + 1 := ⟨es.depthv.toNat - 1, by omega⟩
  obtain ⟨f0, hf⟩ := hf
  have key : ∀ p : Bool,
      (MiniMax.move C { es with alpha_beta_pruning := p } b).1
        = abPBest C es.move_ordering p c es.depthv.toNat b.cur c ⊥ Score.pinf
            es.best_move := by
    intro p
    have hm := minimax_MMSpec C es.depthv.toNat { es with alpha_beta_pruning := p } b c
      ⊥ Score.pinf hnd
      (fun h _ => by
        show dFind es.stored_values h = none
        rw [hst]
        rfl)
    have hbest := hm.2.2.2.2.2.1 (le_of_eq hfd)
    rw [if_pos hfd] at hbest
    have hct : ({ es with alpha_beta_pruning := p } : EngineState σ).color.truthy = c := by
      show es.color.truthy = c
      rw [hcol]
      rfl
    have ha' : ({ es with alpha_beta_pruning := p } : EngineState σ).alpha = ⊥ := ha
    have hb' : ({ es with alpha_beta_pruning := p } : EngineState σ).beta = Score.pinf := hb
    have hcol' : ({ es with alpha_beta_pruning := p } : EngineState σ).color
        = PyObj.boolV c := hcol
    have hn' : ({ es with alpha_beta_pruning := p } : EngineState σ).depthv.toNat
        = es.depthv.toNat := rfl
    rw [MiniMax.move_best C { es with alpha_beta_pruning := p } b c es.depthv.toNat
      ⊥ Score.pinf hcol' hn' ha' hb', hbest, hct]
  rw [key true, key false, hf]
  exact abPBest_root_compare C es.move_ordering c f0 b.cur c es.best_move
    (by rw [← hf]; exact hterm)


/-- A two-move game for exercising the pruning-preservation theorem:
state 0 has moves to states 1 and 2, every state has a move, fingerprints
are the states themselves. -/
def RexW : Rules Nat where
  moves := fun s => if s = 0 then [⟨1, 1⟩, ⟨2, 2⟩] else [⟨0, 0⟩]
  isCapture := fun _ _ => false
  pieceAt := fun _ _ => none
  apply := fun s m =>
    if s = 0 ∧ m = ⟨1, 1⟩ then 1
    else if s = 0 ∧ m = ⟨2, 2⟩ then 2
    else 3
  over := fun _ => false
  eval := fun s => if s = 1 then 3 else if s = 2 then 7 else 0
  hash := fun s => s

def WexAB : SearchCtx Nat := ⟨RexW, RexW.moves, fun _ => []⟩

/-- Witness for the amended C1 theorem: a depth-1 search of a two-move
game with distinct fingerprints returns the same root move with pruning
enabled as with pruning disabled. -/
theorem alpha_beta_preserves_best_move_witness :
    (MiniMax.mkEngine Nat (PyObj.boolV true) 1).color = PyObj.boolV true
    ∧ (MiniMax.mkEngine Nat (PyObj.boolV true) 1).alpha = ⊥
    ∧ (MiniMax.mkEngine Nat (PyObj.boolV true) 1).beta = Score.pinf
    ∧ (MiniMax.mkEngine Nat (PyObj.boolV true) 1).stored_values = []
    ∧ 1 ≤ (MiniMax.mkEngine Nat (PyObj.boolV true) 1).depthv
    ∧ ((treeNodes WexAB (MiniMax.mkEngine Nat (PyObj.boolV true) 1).move_ordering
          (MiniMax.mkEngine Nat (PyObj.boolV true) 1).depthv.toNat
          (mkBoard 0).cur).map WexAB.R.hash).Nodup
    ∧ (∀ s' ∈ treeNodes WexAB (MiniMax.mkEngine Nat (PyObj.boolV true) 1).move_ordering
          (MiniMax.mkEngine Nat (PyObj.boolV true) 1).depthv.toNat (mkBoard 0).cur,
        orderedMoves WexAB (MiniMax.mkEngine Nat (PyObj.boolV true) 1).move_ordering s' = []
          → WexAB.R.over s' = true)
    ∧ (MiniMax.move WexAB
          { MiniMax.mkEngine Nat (PyObj.boolV true) 1 with alpha_beta_pruning := true }
          (mkBoard 0)).1
      = (MiniMax.move WexAB
          { MiniMax.mkEngine Nat (PyObj.boolV true) 1 with alpha_beta_pruning := false }
          (mkBoard 0)).1 :=
  ⟨rfl, rfl, rfl, rfl, by decide, by decide, by decide,
   alpha_beta_preserves_best_move WexAB (MiniMax.mkEngine Nat (PyObj.boolV true) 1)
     (mkBoard 0) true rfl rfl rfl rfl (by decide) (by decide) (by decide)⟩

end Chessmate
